import Mathlib

/-
  Verification of the online Aho-Corasick structure (src/src/search/AhoCorasick.js).

  The JavaScript class keeps a trie of pattern prefixes in a node table indexed by
  integer identifiers, a live dictionary set, a "ghost" set of soft-deleted words,
  and lazily memoized failure links (suffix) and node words.  The embedding below
  translates each method of the class into a Lean function over an explicit state.
  JavaScript strings are embedded as lists of characters, object maps as functions
  into Option, and the two Set fields as Finsets.  The recursive helpers
  (_getSuffix / _transition / _getWord / _getWords / _clearSuffixes) have no
  structural termination argument in the source; they are embedded with an explicit
  fuel parameter, returning none when the fuel runs out.  The fuel passed by query
  is large enough in every reachable state (proved below), so the fuel never
  matters on the states the automaton can actually be in.
-/

set_option autoImplicit false

/-- JavaScript strings are embedded as lists of characters. -/
abbrev Str := List Char

/-- One trie vertex; field for field the `Node` type of the source.  The `end`
field of the source is called `end_` here because `end` is a Lean keyword.
`children` is keyed by one-character strings, exactly as a JavaScript object
keyed by the result of `charAt` is. -/
structure ACNode where
  char : Str
  children : Str → Option Int
  end_ : Bool
  parent : Int
  suffixOf : List Int
  suffix : Option Int
  word : Option Str

/-- Root node identifier (source: `const ROOT = 0`). -/
def ROOT : Int := 0

/-- Sentinel parent of the root (source: `const EMPTY = -1`). -/
def EMPTY : Int := -1

/-- The whole automaton state: the `_dict`, `_ghosts`, `_next` and `_nodes`
fields of the class.  The node table is embedded as a total function; entries
outside the allocated range are never read by any reachable computation. -/
structure AhoCorasick where
  dict : Finset Str
  ghosts : Finset Str
  next : Int
  nodes : Int → ACNode

namespace AhoCorasick

/-- Value used for table entries that were never allocated. -/
def blankNode : ACNode :=
  { char := [], children := fun _ => none, end_ := false, suffixOf := [],
    parent := EMPTY, suffix := none, word := none }

/-- The constructor: empty dictionary, the root node predefined with itself as
its own (memoized) suffix and the empty word. -/
def init : AhoCorasick :=
  { dict := ∅, ghosts := ∅, next := ROOT + 1,
    nodes := fun v =>
      if v = ROOT then
        { char := [], children := fun _ => none, end_ := false, suffixOf := [],
          parent := EMPTY, suffix := some ROOT, word := some [] }
      else blankNode }

/-- Point update of one entry of the node table. -/
def update (s : AhoCorasick) (v : Int) (f : ACNode → ACNode) : AhoCorasick :=
  { s with nodes := fun u => if u = v then f (s.nodes v) else s.nodes u }

/-- Source `_clearSuffixes(node)`: iterate over a snapshot of the keys of
`node.suffixOf`, and for every entry other than `node` itself remove the
back-reference, null the entry's memoized suffix and recurse into it.  The
source recursion has no termination measure; the fuel models it.  Since no code
path of the class ever inserts into a `suffixOf` set, the iterated list is
always empty in reachable states and the function is the identity there. -/
def clearSuffixesF : Nat → AhoCorasick → Int → AhoCorasick
  | 0, s, _ => s
  | f + 1, s, node =>
    ((s.nodes node).suffixOf).foldl
      (fun t clear =>
        if clear = node then t
        else
          clearSuffixesF f
            (update (update t node fun nd => { nd with suffixOf := nd.suffixOf.erase clear })
              clear fun nd => { nd with suffix := none })
            clear)
      s

/-- Fresh node as built in the `else` branch of `add`'s loop. -/
def newNode (c : Char) (last : Bool) (parent : Int) : ACNode :=
  { char := [c], children := fun _ => none, end_ := last, suffixOf := [],
    parent := parent, suffix := none, word := none }

/-- The character-walking loop of `add`: follow an existing child edge when
present (marking the final node as an end node on the last character), else
clear suffixes of the current node, allocate a new identifier `_next + 1`,
insert the new node and the new edge, and advance. -/
def addLoop : AhoCorasick → Int → Str → AhoCorasick
  | s, _, [] => s
  | s, curr, c :: rest =>
    match (s.nodes curr).children [c] with
    | some child =>
      let s₁ := if rest = [] then update s child (fun nd => { nd with end_ := true }) else s
      addLoop s₁ child rest
    | none =>
      let s₁ := clearSuffixesF (s.next.toNat + 1) s curr
      let nxt := s₁.next + 1
      let s₂ := { s₁ with nodes := fun u => if u = nxt then newNode c (rest = []) curr else s₁.nodes u }
      let s₃ := update s₂ curr (fun nd => { nd with children := fun ch => if ch = [c] then some nxt else nd.children ch })
      let s₄ := { s₃ with next := nxt }
      addLoop s₄ nxt rest

/-- Source `add(word)`: reject the empty string, return unchanged if the word is
already in the dictionary, otherwise record it in `_dict`, un-ghost it and walk
or extend the trie. -/
def add (s : AhoCorasick) (word : Str) : Except String AhoCorasick :=
  if word = [] then Except.error "Cannot add empty strings to the structure."
  else if word ∈ s.dict then Except.ok s
  else Except.ok
    (addLoop { s with dict := insert word s.dict, ghosts := s.ghosts.erase word } ROOT word)

/-- The character-walking loop of `delete`: follow the existing path, raising
the internal-consistency error of the source when an expected child edge is
missing, and clear the end flag at the final node. -/
def deleteLoop : AhoCorasick → Int → Str → Except String AhoCorasick
  | s, curr, [] => Except.ok (update s curr (fun nd => { nd with end_ := false }))
  | s, curr, c :: rest =>
    match (s.nodes curr).children [c] with
    | some child => deleteLoop s child rest
    | none => Except.error "Unexpected missing child while deleting a node"

/-- Source `delete(word)`: no-op if the word is not active, otherwise move it
from `_dict` to `_ghosts` and clear the end flag of the node at the end of its
path. -/
def delete (s : AhoCorasick) (word : Str) : Except String AhoCorasick :=
  if word ∈ s.dict then
    deleteLoop { s with dict := s.dict.erase word, ghosts := insert word s.ghosts } ROOT word
  else Except.ok s

mutual

/-- Source `_getSuffix(node)`: return the memoized suffix when present;
otherwise the suffix is the root when the parent is the root, else the
transition from the parent's suffix on this node's character; memoize and
return. -/
def getSuffixF : Nat → AhoCorasick → Int → Option (Int × AhoCorasick)
  | 0, _, _ => none
  | f + 1, s, node =>
    match (s.nodes node).suffix with
    | some suffix => some (suffix, s)
    | none =>
      if (s.nodes node).parent = ROOT then
        some (ROOT, update s node (fun nd => { nd with suffix := some ROOT }))
      else
        match getSuffixF f s ((s.nodes node).parent) with
        | none => none
        | some (ps, s₁) =>
          match transitionF f s₁ ps ((s₁.nodes node).char) with
          | none => none
          | some (suf, s₂) => some (suf, update s₂ node (fun nd => { nd with suffix := some suf }))

/-- Source `_transition(node, char)`: move to the child when the edge exists,
stay at the root when at the root, otherwise transition from the suffix. -/
def transitionF : Nat → AhoCorasick → Int → Str → Option (Int × AhoCorasick)
  | 0, _, _, _ => none
  | f + 1, s, node, char =>
    match (s.nodes node).children char with
    | some child => some (child, s)
    | none =>
      if node = ROOT then some (ROOT, s)
      else
        match getSuffixF f s node with
        | none => none
        | some (suffix, s₁) => transitionF f s₁ suffix char

end

/-- Source `_getWord(node)`: memoized word, else the parent's word followed by
this node's character; memoize and return. -/
def getWordF : Nat → AhoCorasick → Int → Option (Str × AhoCorasick)
  | 0, _, _ => none
  | f + 1, s, node =>
    match (s.nodes node).word with
    | some word => some (word, s)
    | none =>
      match getWordF f s ((s.nodes node).parent) with
      | none => none
      | some (pw, s₁) =>
        let word := pw ++ (s₁.nodes node).char
        some (word, update s₁ node (fun nd => { nd with word := some word }))

/-- The `while (curr !== ROOT)` loop of `_getWords`: step to the suffix, record
the word of every end node visited. -/
def getWordsLoop : Nat → AhoCorasick → Int → List Str → Option (List Str × AhoCorasick)
  | 0, _, _, _ => none
  | f + 1, s, curr, acc =>
    if curr = ROOT then some (acc, s)
    else
      match getSuffixF f s curr with
      | none => none
      | some (curr₁, s₁) =>
        if (s₁.nodes curr₁).end_ then
          match getWordF f s₁ curr₁ with
          | none => none
          | some (w, s₂) => getWordsLoop f s₂ curr₁ (acc ++ [w])
        else getWordsLoop f s₁ curr₁ acc

/-- Source `_getWords(node)`: the node's own word when it is an end node,
followed by the words collected along the suffix chain. -/
def getWords (f : Nat) (s : AhoCorasick) (node : Int) : Option (List Str × AhoCorasick) :=
  if (s.nodes node).end_ then
    match getWordF f s node with
    | none => none
    | some (w, s₁) => getWordsLoop f s₁ node [w]
  else getWordsLoop f s node []

/-- Fuel supplied to the lazy helpers by the query loop.  Node depth is bounded
by the node identifier, hence by `next`, so this bound is sufficient in every
reachable state (proved below). -/
def bigFuel (s : AhoCorasick) : Nat := 2 * s.next.toNat + 4

/-- The scanning loop of `query`: per character, advance via the transition
function, and when the reached node is an end node add all words of its output
set to the results. -/
def queryLoop : AhoCorasick → Int → Str → Finset Str → Option (Finset Str × AhoCorasick)
  | s, _, [], results => some (results, s)
  | s, curr, c :: rest, results =>
    match transitionF (bigFuel s) s curr [c] with
    | none => none
    | some (curr₁, s₁) =>
      if (s₁.nodes curr₁).end_ then
        match getWords (bigFuel s₁) s₁ curr₁ with
        | none => none
        | some (ws, s₂) =>
          queryLoop s₂ curr₁ rest (ws.foldl (fun r w => insert w r) results)
      else queryLoop s₁ curr₁ rest results

/-- Source `query(haystack)`: scan from the root with an empty result set. -/
def query (s : AhoCorasick) (haystack : Str) : Option (Finset Str × AhoCorasick) :=
  queryLoop s ROOT haystack ∅

/-- Walk child edges from a node along a string (the path-following pattern
shared by the loops of `add` and `delete`). -/
def followPath (s : AhoCorasick) : Int → Str → Option Int
  | v, [] => some v
  | v, c :: rest =>
    match (s.nodes v).children [c] with
    | some child => followPath s child rest
    | none => none

/-- Fueled spelling of the root-to-node path of a node, via the parent chain. -/
def spellF : Nat → AhoCorasick → Int → Str
  | 0, _, _ => []
  | f + 1, s, v => if v = ROOT then [] else spellF f s ((s.nodes v).parent) ++ (s.nodes v).char

/-- The word a node represents.  In well-formed states parent identifiers
strictly decrease, so `v.toNat + 1` steps always reach the root. -/
def spell (s : AhoCorasick) (v : Int) : Str := spellF (v.toNat + 1) s v

/-- `w` occurs as a contiguous substring of `h`. -/
def Substr (w h : Str) : Prop := ∃ l r, h = l ++ w ++ r

/-- The allocated node identifiers: the root, and the ids `2 .. next` handed
out by `add` (the source never uses id `1`: `_next` starts at `ROOT + 1` and
every allocation uses `_next + 1`). -/
def Dom (s : AhoCorasick) (v : Int) : Prop := v = ROOT ∨ (2 ≤ v ∧ v ≤ s.next)

instance (s : AhoCorasick) (v : Int) : Decidable (Dom s v) := by
  unfold Dom; infer_instance

/-- States reachable through the public interface from a fresh automaton. -/
inductive Reach : AhoCorasick → Prop where
  | init : Reach init
  | add {s w s'} : Reach s → add s w = Except.ok s' → Reach s'
  | del {s w s'} : Reach s → delete s w = Except.ok s' → Reach s'
  | query {s h res s'} : Reach s → query s h = some (res, s') → Reach s'

end AhoCorasick

namespace AhoCorasick

/-! Concrete example states used to exercise the code on explicit inputs.
`cs1` results from `add "ab"` on a fresh automaton, `cs2` from then running
`query "ab"` (which memoizes failure links), `cs3` from then running `add "b"`,
and `ca2` from running `add "ab"; add "b"` with no interleaved query. -/

/-- The word "ab". -/
def abW : Str := ['a', 'b']

/-- The word "b". -/
def bW : Str := ['b']

/-- State after `add "ab"` on a fresh automaton. -/
def cs1 : AhoCorasick := match add init abW with
  | .ok s => s
  | .error _ => init

/-- Result set of `query cs1 "ab"`. -/
def qres1 : Finset Str := match query cs1 abW with
  | some (r, _) => r
  | none => ∅

/-- State after `add "ab"; query "ab"`. -/
def cs2 : AhoCorasick := match query cs1 abW with
  | some (_, s) => s
  | none => cs1

/-- State after `add "ab"; query "ab"; add "b"`. -/
def cs3 : AhoCorasick := match add cs2 bW with
  | .ok s => s
  | .error _ => cs2

/-- Result set of `query cs3 "ab"`. -/
def qres3 : Finset Str := match query cs3 abW with
  | some (r, _) => r
  | none => ∅

/-- State after `add "ab"; query "ab"; add "b"; query "ab"`. -/
def cs3q : AhoCorasick := match query cs3 abW with
  | some (_, s) => s
  | none => cs3

/-- State after `add "ab"; add "b"` (no interleaved query). -/
def ca2 : AhoCorasick := match add cs1 bW with
  | .ok s => s
  | .error _ => cs1

/-- Result set of `query ca2 "ab"`. -/
def qresA : Finset Str := match query ca2 abW with
  | some (r, _) => r
  | none => ∅

/-- State after `add "ab"; add "b"; query "ab"`. -/
def ca2q : AhoCorasick := match query ca2 abW with
  | some (_, s) => s
  | none => ca2

lemma step_cs1 : add init abW = Except.ok cs1 := rfl

lemma step_cs2 : query cs1 abW = some (qres1, cs2) := rfl

lemma step_cs3 : add cs2 bW = Except.ok cs3 := rfl

lemma step_cs3q : query cs3 abW = some (qres3, cs3q) := rfl

lemma step_ca2 : add cs1 bW = Except.ok ca2 := rfl

lemma step_ca2q : query ca2 abW = some (qresA, ca2q) := rfl

lemma reach_cs1 : Reach cs1 := Reach.add Reach.init step_cs1

lemma reach_cs2 : Reach cs2 := Reach.query reach_cs1 step_cs2

lemma reach_cs3 : Reach cs3 := Reach.add reach_cs2 step_cs3

lemma reach_ca2 : Reach ca2 := Reach.add reach_cs1 step_ca2

/-- Modelled from the spec's invariant for memoized failure links: every
memoized `suffix` value designates the node of the longest proper suffix of the
node's word that is also a root-to-node path of the current trie. -/
def SuffixLinkSpec (s : AhoCorasick) : Prop :=
  ∀ v u, Dom s v → v ≠ ROOT → (s.nodes v).suffix = some u →
    spell s u <:+ spell s v ∧ spell s u ≠ spell s v ∧
    followPath s ROOT (spell s u) = some u ∧
    ∀ w, w <:+ spell s v → w ≠ spell s v → (followPath s ROOT w).isSome →
      w.length ≤ (spell s u).length

end AhoCorasick

open AhoCorasick

/-- C1: the claim that for every reachable state, every active word `w` and
every haystack, `query` reports `w` exactly when `w` occurs as a contiguous
substring, is false on the code.  After `add "ab"; query "ab"; add "b"`, the
suffix link of node "ab" is still memoized to the root (the `suffixOf`
back-reference sets are never populated, so `_clearSuffixes` clears nothing),
hence `query "ab"` fails to report the active word "b" even though "b" occurs
in "ab". -/
theorem C1_query_iff_substring_refuted :
    ¬ (∀ s, Reach s → ∀ w, w ∈ s.dict → ∀ h res s₁,
        query s h = some (res, s₁) → (w ∈ res ↔ Substr w h)) := by
  intro hclaim
  have h := hclaim cs3 reach_cs3 bW (by decide) abW qres3 cs3q step_cs3q
  have hmem : bW ∈ qres3 := h.mpr ⟨['a'], [], rfl⟩
  exact absurd hmem (by decide)

/-- C2: the claim that query behavior depends only on the final active set
(histories with interleaved queries included) is false on the code.  The
histories `add "ab"; add "b"` and `add "ab"; query "ab"; add "b"` end with the
same active dictionary, but a subsequent `query "ab"` returns `{"ab","b"}` in
the first case and only `{"ab"}` in the second, because the interleaved query
memoized a failure link that the second `add` fails to invalidate. -/
theorem C2_order_independence_refuted :
    ¬ (∀ s₁ s₂, Reach s₁ → Reach s₂ → s₁.dict = s₂.dict →
        ∀ h r₁ t₁ r₂ t₂, query s₁ h = some (r₁, t₁) → query s₂ h = some (r₂, t₂) →
          r₁ = r₂) := by
  intro hclaim
  have h := hclaim ca2 cs3 reach_ca2 reach_cs3 (by decide) abW
    qresA ca2q qres3 cs3q step_ca2q step_cs3q
  exact absurd h (by decide)

/-- C3: the claimed invariant that every memoized failure link equals the
longest proper suffix of the node's word that is a root path in the current
trie is false on the code.  In the reachable state after
`add "ab"; query "ab"; add "b"`, node 3 (the node of "ab") has its suffix
memoized to the root, whose word is empty, while the proper suffix "b" of "ab"
is a root path (to node 4): the new edge created by `add "b"` invalidated
nothing because the `suffixOf` sets are never populated. -/
theorem C3_suffix_link_invariant_refuted :
    ¬ (∀ s, Reach s → SuffixLinkSpec s) := by
  intro hclaim
  have h := hclaim cs3 reach_cs3 3 0 (by decide) (by decide) (by decide)
  have hlen := h.2.2.2 bW ⟨['a'], by decide⟩ (by decide) (by decide)
  exact absurd hlen (by decide)

namespace AhoCorasick

/-- Fold invariance helper: a predicate preserved by every step of a left fold
holds of the fold's result. -/
lemma foldl_invariant {α β : Type} (P : β → Prop) (g : β → α → β)
    (hstep : ∀ t a, P t → P (g t a)) :
    ∀ (l : List α) (t : β), P t → P (List.foldl g t l)
  | [], _, ht => ht
  | a :: l, t, ht => foldl_invariant P g hstep l (g t a) (hstep t a ht)

lemma update_dict (s : AhoCorasick) (v : Int) (f : ACNode → ACNode) :
    (update s v f).dict = s.dict := rfl

lemma clearSuffixesF_dict : ∀ (f : Nat) (s : AhoCorasick) (v : Int),
    (clearSuffixesF f s v).dict = s.dict := by
  intro f
  induction f with
  | zero => intro s v; rfl
  | succ f ih =>
    intro s v
    rw [clearSuffixesF]
    refine foldl_invariant (fun (t : AhoCorasick) => t.dict = s.dict) _ ?_ _ _ rfl
    intro t a ht
    dsimp only
    split
    · exact ht
    · rw [ih]; exact ht

lemma addLoop_dict : ∀ (w : Str) (s : AhoCorasick) (curr : Int),
    (addLoop s curr w).dict = s.dict := by
  intro w
  induction w with
  | nil => intro s curr; rfl
  | cons c rest ih =>
    intro s curr
    rw [addLoop]
    cases hc : (s.nodes curr).children [c] with
    | some child =>
      dsimp only
      rw [ih]
      split <;> rfl
    | none =>
      dsimp only
      rw [ih]
      simp [update, clearSuffixesF_dict]

lemma deleteLoop_dict : ∀ (w : Str) (s : AhoCorasick) (curr : Int) (t : AhoCorasick),
    deleteLoop s curr w = Except.ok t → t.dict = s.dict := by
  intro w
  induction w with
  | nil =>
    intro s curr t h
    rw [deleteLoop] at h
    cases h
    rfl
  | cons c rest ih =>
    intro s curr t h
    rw [deleteLoop] at h
    cases hc : (s.nodes curr).children [c] with
    | some child =>
      rw [hc] at h
      exact ih s child t h
    | none => rw [hc] at h; cases h

end AhoCorasick

open AhoCorasick

/-- C4: adding the same word twice in a row has exactly the effect of adding it
once, and deleting the same word twice has exactly the effect of deleting it
once: the second call returns early (the word is respectively already in, or no
longer in, the dictionary) leaving the state untouched. -/
theorem C4_add_delete_idempotent (s : AhoCorasick) (w : Str) :
    ((add s w).bind fun t => add t w) = add s w ∧
    ((delete s w).bind fun t => delete t w) = delete s w := by
  constructor
  · by_cases hw : w = []
    · subst hw; rfl
    · by_cases hmem : w ∈ s.dict
      · rw [add, if_neg hw, if_pos hmem]
        show add s w = _
        rw [add, if_neg hw, if_pos hmem]
      · rw [add, if_neg hw, if_neg hmem]
        show add _ w = _
        rw [add, if_neg hw, if_pos (by rw [addLoop_dict]; exact Finset.mem_insert_self w _)]
  · by_cases hmem : w ∈ s.dict
    · rw [delete, if_pos hmem]
      cases hd : deleteLoop { s with dict := s.dict.erase w, ghosts := insert w s.ghosts } ROOT w with
      | error e => rfl
      | ok t =>
        show delete t w = _
        rw [delete, if_neg (by rw [deleteLoop_dict _ _ _ _ hd]; simp)]
    · rw [delete, if_neg hmem]
      show delete s w = _
      rw [delete, if_neg hmem]

/-- C6: `add` of the empty string always reports the precondition violation of
the source (`invariant(word, ...)`) and produces no successor state: the
automaton the caller holds is exactly the one from before the call. -/
theorem C6_add_empty_string_error (s : AhoCorasick) :
    add s [] = Except.error "Cannot add empty strings to the structure." := rfl

namespace AhoCorasick

/-- `t` agrees with `s` on everything except possibly the two memo fields
(`suffix`, `word`) of nodes: same dictionary and ghost sets, same allocation
counter, same trie shape (children, parent, char), same end flags and same
`suffixOf` sets. -/
def ShapeEq (s t : AhoCorasick) : Prop :=
  t.dict = s.dict ∧ t.ghosts = s.ghosts ∧ t.next = s.next ∧
  ∀ v, (t.nodes v).char = (s.nodes v).char ∧ (t.nodes v).children = (s.nodes v).children ∧
    (t.nodes v).end_ = (s.nodes v).end_ ∧ (t.nodes v).parent = (s.nodes v).parent ∧
    (t.nodes v).suffixOf = (s.nodes v).suffixOf

/-- Every suffix or word memo present in `s` is present unchanged in `t`
(memoization only ever fills empty slots). -/
def CacheLe (s t : AhoCorasick) : Prop :=
  ∀ v, (∀ u, (s.nodes v).suffix = some u → (t.nodes v).suffix = some u) ∧
       (∀ w, (s.nodes v).word = some w → (t.nodes v).word = some w)

lemma shapeEq_refl (s : AhoCorasick) : ShapeEq s s :=
  ⟨rfl, rfl, rfl, fun _ => ⟨rfl, rfl, rfl, rfl, rfl⟩⟩

lemma shapeEq_symm {s t : AhoCorasick} (h : ShapeEq s t) : ShapeEq t s := by
  obtain ⟨h1, h2, h3, h4⟩ := h
  exact ⟨h1.symm, h2.symm, h3.symm, fun v => by
    obtain ⟨a, b, c, d, e⟩ := h4 v
    exact ⟨a.symm, b.symm, c.symm, d.symm, e.symm⟩⟩

lemma shapeEq_trans {s t u : AhoCorasick} (h1 : ShapeEq s t) (h2 : ShapeEq t u) :
    ShapeEq s u := by
  obtain ⟨a1, b1, c1, d1⟩ := h1
  obtain ⟨a2, b2, c2, d2⟩ := h2
  refine ⟨a2.trans a1, b2.trans b1, c2.trans c1, fun v => ?_⟩
  obtain ⟨x1, y1, z1, w1, v1⟩ := d1 v
  obtain ⟨x2, y2, z2, w2, v2⟩ := d2 v
  exact ⟨x2.trans x1, y2.trans y1, z2.trans z1, w2.trans w1, v2.trans v1⟩

lemma cacheLe_refl (s : AhoCorasick) : CacheLe s s :=
  fun _ => ⟨fun _ h => h, fun _ h => h⟩

lemma cacheLe_trans {s t u : AhoCorasick} (h1 : CacheLe s t) (h2 : CacheLe t u) :
    CacheLe s u :=
  fun v => ⟨fun x h => (h2 v).1 x ((h1 v).1 x h),
            fun x h => (h2 v).2 x ((h1 v).2 x h)⟩

lemma shapeEq_update_suffix (s : AhoCorasick) (v : Int) (r : Option Int) :
    ShapeEq s (update s v fun nd => { nd with suffix := r }) := by
  refine ⟨rfl, rfl, rfl, fun u => ?_⟩
  simp only [update]
  by_cases h : u = v <;> simp [h]

lemma shapeEq_update_word (s : AhoCorasick) (v : Int) (r : Option Str) :
    ShapeEq s (update s v fun nd => { nd with word := r }) := by
  refine ⟨rfl, rfl, rfl, fun u => ?_⟩
  simp only [update]
  by_cases h : u = v <;> simp [h]

lemma shapeEq_bigFuel {s t : AhoCorasick} (h : ShapeEq s t) : bigFuel t = bigFuel s := by
  rw [bigFuel, bigFuel, h.2.2.1]

lemma update_node_eq (s : AhoCorasick) (v : Int) (f : ACNode → ACNode) :
    (update s v f).nodes v = f (s.nodes v) := by simp [update]

lemma update_node_ne (s : AhoCorasick) (v u : Int) (f : ACNode → ACNode) (h : u ≠ v) :
    (update s v f).nodes u = s.nodes u := by simp [update, h]

/-- Frame and monotonicity for the two mutually recursive lazy helpers:
whenever `_getSuffix` or `_transition` returns, the new state has the same
shape, all previously memoized values are untouched, no word memo changes at
all, and (for `_getSuffix`) the queried node's suffix memo now holds the
returned value. -/
lemma getSuffixF_transitionF_frame : ∀ f : Nat,
    (∀ s v r s₁, getSuffixF f s v = some (r, s₁) →
      ShapeEq s s₁ ∧ CacheLe s s₁ ∧ (∀ u, (s₁.nodes u).word = (s.nodes u).word) ∧
      (s₁.nodes v).suffix = some r) ∧
    (∀ s v ch r s₁, transitionF f s v ch = some (r, s₁) →
      ShapeEq s s₁ ∧ CacheLe s s₁ ∧ (∀ u, (s₁.nodes u).word = (s.nodes u).word)) := by
  intro f
  induction f with
  | zero =>
    refine ⟨fun s v r s₁ h => absurd h (by simp [getSuffixF]),
           fun s v ch r s₁ h => absurd h (by simp [transitionF])⟩
  | succ f ih =>
    constructor
    · intro s v r s₁ h
      rw [getSuffixF] at h
      split at h
      · rename_i u hm
        cases h
        exact ⟨shapeEq_refl s, cacheLe_refl s, fun _ => rfl, hm⟩
      · rename_i hm
        split at h
        · cases h
          refine ⟨shapeEq_update_suffix .., fun u => ⟨?_, ?_⟩, fun u => ?_, ?_⟩
          · intro x hx
            by_cases hu : u = v
            · subst hu; rw [hm] at hx; cases hx
            · rw [update_node_ne _ _ _ _ hu]; exact hx
          · intro x hx
            by_cases hu : u = v
            · subst hu; rw [update_node_eq]; exact hx
            · rw [update_node_ne _ _ _ _ hu]; exact hx
          · by_cases hu : u = v
            · subst hu; rw [update_node_eq]
            · rw [update_node_ne _ _ _ _ hu]
          · rw [update_node_eq]
        · split at h
          · cases h
          rename_i ps s₂ hps
          split at h
          · cases h
          rename_i suf s₃ htr
          cases h
          obtain ⟨hse1, hcl1, hw1, _⟩ := ih.1 _ _ _ _ hps
          obtain ⟨hse2, hcl2, hw2⟩ := ih.2 _ _ _ _ _ htr
          have hse := shapeEq_trans hse1 hse2
          refine ⟨shapeEq_trans hse (shapeEq_update_suffix ..), fun u => ⟨?_, ?_⟩,
            fun u => ?_, ?_⟩
          · intro x hx
            by_cases hu : u = v
            · subst hu; rw [hm] at hx; cases hx
            · rw [update_node_ne _ _ _ _ hu]
              exact (hcl2 u).1 x ((hcl1 u).1 x hx)
          · intro x hx
            by_cases hu : u = v
            · subst hu; rw [update_node_eq]
              exact (hcl2 u).2 x ((hcl1 u).2 x hx)
            · rw [update_node_ne _ _ _ _ hu]
              exact (hcl2 u).2 x ((hcl1 u).2 x hx)
          · by_cases hu : u = v
            · subst hu; rw [update_node_eq]
              exact (hw2 u).trans (hw1 u)
            · rw [update_node_ne _ _ _ _ hu]
              exact (hw2 u).trans (hw1 u)
          · rw [update_node_eq]
    · intro s v ch r s₁ h
      rw [transitionF] at h
      split at h
      · rename_i child hc
        cases h
        exact ⟨shapeEq_refl s, cacheLe_refl s, fun _ => rfl⟩
      · rename_i hc
        split at h
        · cases h
          exact ⟨shapeEq_refl s, cacheLe_refl s, fun _ => rfl⟩
        · split at h
          · cases h
          rename_i suffix s₂ hgs
          obtain ⟨hse1, hcl1, hw1, _⟩ := ih.1 _ _ _ _ hgs
          obtain ⟨hse2, hcl2, hw2⟩ := ih.2 _ _ _ _ _ h
          exact ⟨shapeEq_trans hse1 hse2, cacheLe_trans hcl1 hcl2,
            fun u => (hw2 u).trans (hw1 u)⟩

/-- Frame and monotonicity for `_getWord`: only word memos are written, and the
queried node's word memo holds the returned value afterwards. -/
lemma getWordF_frame : ∀ (f : Nat) (s : AhoCorasick) (v : Int) (r : Str) (s₁ : AhoCorasick),
    getWordF f s v = some (r, s₁) →
    ShapeEq s s₁ ∧ CacheLe s s₁ ∧ (∀ u, (s₁.nodes u).suffix = (s.nodes u).suffix) ∧
    (s₁.nodes v).word = some r := by
  intro f
  induction f with
  | zero => intro s v r s₁ h; exact absurd h (by simp [getWordF])
  | succ f ih =>
    intro s v r s₁ h
    rw [getWordF] at h
    split at h
    · rename_i w hm
      cases h
      exact ⟨shapeEq_refl s, cacheLe_refl s, fun _ => rfl, hm⟩
    · rename_i hm
      split at h
      · cases h
      rename_i pw s₂ hp
      cases h
      obtain ⟨hse1, hcl1, hsuf1, _⟩ := ih _ _ _ _ hp
      refine ⟨shapeEq_trans hse1 (shapeEq_update_word ..), fun u => ⟨?_, ?_⟩,
        fun u => ?_, ?_⟩
      · intro x hx
        by_cases hu : u = v
        · subst hu; rw [update_node_eq]
          show (s₂.nodes u).suffix = some x
          rw [hsuf1]; exact hx
        · rw [update_node_ne _ _ _ _ hu, hsuf1]; exact hx
      · intro x hx
        by_cases hu : u = v
        · subst hu; rw [hm] at hx; cases hx
        · rw [update_node_ne _ _ _ _ hu]
          exact (hcl1 u).2 x hx
      · by_cases hu : u = v
        · subst hu; rw [update_node_eq]
          show (s₂.nodes u).suffix = (s.nodes u).suffix
          exact hsuf1 u
        · rw [update_node_ne _ _ _ _ hu]; exact hsuf1 u
      · rw [update_node_eq]

/-- Frame and monotonicity for the suffix-chain loop of `_getWords`. -/
lemma getWordsLoop_frame : ∀ (f : Nat) (s : AhoCorasick) (v : Int) (acc out : List Str)
    (s₁ : AhoCorasick), getWordsLoop f s v acc = some (out, s₁) →
    ShapeEq s s₁ ∧ CacheLe s s₁ := by
  intro f
  induction f with
  | zero => intro s v acc out s₁ h; exact absurd h (by simp [getWordsLoop])
  | succ f ih =>
    intro s v acc out s₁ h
    rw [getWordsLoop] at h
    split at h
    · cases h; exact ⟨shapeEq_refl s, cacheLe_refl s⟩
    · split at h
      · cases h
      rename_i c₁ s₂ hgs
      obtain ⟨hse1, hcl1, _, _⟩ := (getSuffixF_transitionF_frame f).1 _ _ _ _ hgs
      split at h
      · split at h
        · cases h
        rename_i w s₃ hw
        obtain ⟨hse2, hcl2, _, _⟩ := getWordF_frame f _ _ _ _ hw
        obtain ⟨hse3, hcl3⟩ := ih _ _ _ _ _ h
        exact ⟨shapeEq_trans (shapeEq_trans hse1 hse2) hse3,
          cacheLe_trans (cacheLe_trans hcl1 hcl2) hcl3⟩
      · obtain ⟨hse3, hcl3⟩ := ih _ _ _ _ _ h
        exact ⟨shapeEq_trans hse1 hse3, cacheLe_trans hcl1 hcl3⟩

/-- Frame and monotonicity for `_getWords`. -/
lemma getWords_frame (f : Nat) (s : AhoCorasick) (v : Int) (out : List Str)
    (s₁ : AhoCorasick) (h : getWords f s v = some (out, s₁)) :
    ShapeEq s s₁ ∧ CacheLe s s₁ := by
  rw [getWords] at h
  split at h
  · split at h
    · cases h
    rename_i w s₂ hw
    obtain ⟨hse1, hcl1, _, _⟩ := getWordF_frame f _ _ _ _ hw
    obtain ⟨hse2, hcl2⟩ := getWordsLoop_frame f _ _ _ _ _ h
    exact ⟨shapeEq_trans hse1 hse2, cacheLe_trans hcl1 hcl2⟩
  · exact getWordsLoop_frame f _ _ _ _ _ h

/-- Frame and monotonicity for the scanning loop of `query`. -/
lemma queryLoop_frame : ∀ (hay : Str) (s : AhoCorasick) (v : Int) (res out : Finset Str)
    (s₁ : AhoCorasick), queryLoop s v hay res = some (out, s₁) →
    ShapeEq s s₁ ∧ CacheLe s s₁ := by
  intro hay
  induction hay with
  | nil =>
    intro s v res out s₁ h
    rw [queryLoop] at h
    cases h
    exact ⟨shapeEq_refl s, cacheLe_refl s⟩
  | cons c rest ih =>
    intro s v res out s₁ h
    rw [queryLoop] at h
    split at h
    · cases h
    rename_i c₁ s₂ htr
    obtain ⟨hse1, hcl1, _⟩ := (getSuffixF_transitionF_frame _).2 _ _ _ _ _ htr
    split at h
    · split at h
      · cases h
      rename_i ws s₃ hgw
      obtain ⟨hse2, hcl2⟩ := getWords_frame _ _ _ _ _ hgw
      obtain ⟨hse3, hcl3⟩ := ih _ _ _ _ _ h
      exact ⟨shapeEq_trans (shapeEq_trans hse1 hse2) hse3,
        cacheLe_trans (cacheLe_trans hcl1 hcl2) hcl3⟩
    · obtain ⟨hse3, hcl3⟩ := ih _ _ _ _ _ h
      exact ⟨shapeEq_trans hse1 hse3, cacheLe_trans hcl1 hcl3⟩

/-- Frame and monotonicity for `query` itself. -/
lemma query_frame (s : AhoCorasick) (hay : Str) (out : Finset Str) (s₁ : AhoCorasick)
    (h : query s hay = some (out, s₁)) : ShapeEq s s₁ ∧ CacheLe s s₁ :=
  queryLoop_frame hay s ROOT ∅ out s₁ h

/-- Re-running `_getSuffix` on any state that carries all memos of the first
run's result state (in particular on that result state itself) is a pure cache
hit returning the same value. -/
lemma getSuffixF_stable (f : Nat) (s : AhoCorasick) (v r : Int) (s₁ t : AhoCorasick)
    (h : getSuffixF f s v = some (r, s₁)) (hcl : CacheLe s₁ t) :
    getSuffixF f t v = some (r, t) := by
  have hout : (s₁.nodes v).suffix = some r :=
    ((getSuffixF_transitionF_frame f).1 _ _ _ _ h).2.2.2
  have ht : (t.nodes v).suffix = some r := (hcl v).1 r hout
  cases f with
  | zero => rw [getSuffixF] at h; cases h
  | succ f => rw [getSuffixF, ht]

/-- Re-running `_getWord` against the memos of a completed run is a cache hit. -/
lemma getWordF_stable (f : Nat) (s : AhoCorasick) (v : Int) (r : Str) (s₁ t : AhoCorasick)
    (h : getWordF f s v = some (r, s₁)) (hcl : CacheLe s₁ t) :
    getWordF f t v = some (r, t) := by
  have hout : (s₁.nodes v).word = some r := (getWordF_frame f _ _ _ _ h).2.2.2
  have ht : (t.nodes v).word = some r := (hcl v).2 r hout
  cases f with
  | zero => rw [getWordF] at h; cases h
  | succ f => rw [getWordF, ht]

/-- Re-running `_transition` on a same-shaped state that carries all memos of
the first run's result returns the same node and leaves the state alone. -/
lemma transitionF_stable : ∀ (f : Nat) (s : AhoCorasick) (v : Int) (ch : Str) (r : Int)
    (s₁ t : AhoCorasick), transitionF f s v ch = some (r, s₁) →
    ShapeEq s t → CacheLe s₁ t → transitionF f t v ch = some (r, t) := by
  intro f
  induction f with
  | zero => intro s v ch r s₁ t h _ _; exact absurd h (by simp [transitionF])
  | succ f ih =>
    intro s v ch r s₁ t h hse hcl
    rw [transitionF] at h ⊢
    have hch : (t.nodes v).children = (s.nodes v).children := (hse.2.2.2 v).2.1
    split at h
    · rename_i child hc
      cases h
      rw [hch]
      simp only [hc]
    · rename_i hc
      rw [hch]
      simp only [hc]
      by_cases hv : v = ROOT
      · rw [if_pos hv] at h ⊢
        cases h; rfl
      · rw [if_neg hv] at h ⊢
        split at h
        · cases h
        rename_i u sa hgs
        have hcl1 : CacheLe sa s₁ :=
          ((getSuffixF_transitionF_frame f).2 _ _ _ _ _ h).2.1
        have hgs' : getSuffixF f t v = some (u, t) :=
          getSuffixF_stable f s v u sa t hgs (cacheLe_trans hcl1 hcl)
        simp only [hgs']
        have hsea : ShapeEq s sa := ((getSuffixF_transitionF_frame f).1 _ _ _ _ hgs).1
        exact ih sa u ch r s₁ t h (shapeEq_trans (shapeEq_symm hsea) hse) hcl

/-- Re-running the suffix-chain loop of `_getWords` against the memos of a
completed run returns the same word list. -/
lemma getWordsLoop_stable : ∀ (f : Nat) (s : AhoCorasick) (v : Int) (acc out : List Str)
    (s₁ t : AhoCorasick), getWordsLoop f s v acc = some (out, s₁) →
    ShapeEq s t → CacheLe s₁ t → getWordsLoop f t v acc = some (out, t) := by
  intro f
  induction f with
  | zero => intro s v acc out s₁ t h _ _; exact absurd h (by simp [getWordsLoop])
  | succ f ih =>
    intro s v acc out s₁ t h hse hcl
    rw [getWordsLoop] at h ⊢
    by_cases hv : v = ROOT
    · rw [if_pos hv] at h ⊢; cases h; rfl
    · rw [if_neg hv] at h ⊢
      split at h
      · cases h
      rename_i c₁ sa hgs
      have hsea : ShapeEq s sa := ((getSuffixF_transitionF_frame f).1 _ _ _ _ hgs).1
      split at h
      · rename_i hend
        split at h
        · cases h
        rename_i w sb hw
        obtain ⟨hseab, hclab, _, _⟩ := getWordF_frame f _ _ _ _ hw
        have hclb : CacheLe sb s₁ := (getWordsLoop_frame f _ _ _ _ _ h).2
        have hgs' : getSuffixF f t v = some (c₁, t) :=
          getSuffixF_stable f s v c₁ sa t hgs
            (cacheLe_trans hclab (cacheLe_trans hclb hcl))
        simp only [hgs']
        have hend' : (t.nodes c₁).end_ = true := by
          have h1 : (t.nodes c₁).end_ = (s.nodes c₁).end_ := (hse.2.2.2 c₁).2.2.1
          have h2 : (sa.nodes c₁).end_ = (s.nodes c₁).end_ := (hsea.2.2.2 c₁).2.2.1
          rw [h1, ← h2]; exact hend
        rw [hend']
        simp only [if_true]
        have hw' : getWordF f t c₁ = some (w, t) :=
          getWordF_stable f sa c₁ w sb t hw (cacheLe_trans hclb hcl)
        simp only [hw']
        exact ih sb c₁ (acc ++ [w]) out s₁ t h
          (shapeEq_trans (shapeEq_symm (shapeEq_trans hsea hseab)) hse) hcl
      · rename_i hend
        have hcla : CacheLe sa s₁ := (getWordsLoop_frame f _ _ _ _ _ h).2
        have hgs' : getSuffixF f t v = some (c₁, t) :=
          getSuffixF_stable f s v c₁ sa t hgs (cacheLe_trans hcla hcl)
        simp only [hgs']
        have hend' : ¬ (t.nodes c₁).end_ = true := by
          have h1 : (t.nodes c₁).end_ = (s.nodes c₁).end_ := (hse.2.2.2 c₁).2.2.1
          have h2 : (sa.nodes c₁).end_ = (s.nodes c₁).end_ := (hsea.2.2.2 c₁).2.2.1
          rw [h1, ← h2]; exact hend
        rw [if_neg hend']
        exact ih sa c₁ acc out s₁ t h
          (shapeEq_trans (shapeEq_symm hsea) hse) hcl

/-- Re-running `_getWords` against the memos of a completed run returns the
same word list. -/
lemma getWords_stable (f : Nat) (s : AhoCorasick) (v : Int) (out : List Str)
    (s₁ t : AhoCorasick) (h : getWords f s v = some (out, s₁))
    (hse : ShapeEq s t) (hcl : CacheLe s₁ t) : getWords f t v = some (out, t) := by
  rw [getWords] at h ⊢
  have hend : (t.nodes v).end_ = (s.nodes v).end_ := (hse.2.2.2 v).2.2.1
  split at h
  · rename_i he
    rw [hend, he]
    simp only [if_true]
    split at h
    · cases h
    rename_i w sa hw
    obtain ⟨hsea, _, _, _⟩ := getWordF_frame f _ _ _ _ hw
    have hcla : CacheLe sa s₁ := (getWordsLoop_frame f _ _ _ _ _ h).2
    have hw' : getWordF f t v = some (w, t) :=
      getWordF_stable f s v w sa t hw (cacheLe_trans hcla hcl)
    simp only [hw']
    exact getWordsLoop_stable f sa v [w] out s₁ t h
      (shapeEq_trans (shapeEq_symm hsea) hse) hcl
  · rename_i he
    rw [hend, if_neg he]
    exact getWordsLoop_stable f s v [] out s₁ t h hse hcl

/-- Re-running the scanning loop of `query` against the memos of a completed
run visits the same nodes and accumulates the same result set. -/
lemma queryLoop_stable : ∀ (hay : Str) (s : AhoCorasick) (v : Int) (res out : Finset Str)
    (s₁ t : AhoCorasick), queryLoop s v hay res = some (out, s₁) →
    ShapeEq s t → CacheLe s₁ t → queryLoop t v hay res = some (out, t) := by
  intro hay
  induction hay with
  | nil =>
    intro s v res out s₁ t h hse hcl
    rw [queryLoop] at h ⊢
    cases h; rfl
  | cons c rest ih =>
    intro s v res out s₁ t h hse hcl
    rw [queryLoop] at h ⊢
    split at h
    · cases h
    rename_i c₁ sa htr
    obtain ⟨hsea, _, _⟩ := (getSuffixF_transitionF_frame _).2 _ _ _ _ _ htr
    have hbf : bigFuel t = bigFuel s := shapeEq_bigFuel hse
    split at h
    · rename_i hend
      split at h
      · cases h
      rename_i ws sb hgw
      obtain ⟨hseab, hclab⟩ := getWords_frame _ _ _ _ _ hgw
      have hclb : CacheLe sb s₁ := (queryLoop_frame _ _ _ _ _ _ h).2
      have htr' : transitionF (bigFuel t) t v [c] = some (c₁, t) := by
        rw [hbf]
        exact transitionF_stable _ s v [c] c₁ sa t htr hse
          (cacheLe_trans hclab (cacheLe_trans hclb hcl))
      simp only [htr']
      have hend' : (t.nodes c₁).end_ = true := by
        have h1 : (t.nodes c₁).end_ = (s.nodes c₁).end_ := (hse.2.2.2 c₁).2.2.1
        have h2 : (sa.nodes c₁).end_ = (s.nodes c₁).end_ := (hsea.2.2.2 c₁).2.2.1
        rw [h1, ← h2]; exact hend
      rw [hend']
      simp only [if_true]
      have hgw' : getWords (bigFuel t) t c₁ = some (ws, t) := by
        have hba : bigFuel t = bigFuel sa := by
          rw [hbf, bigFuel, bigFuel, hsea.2.2.1]
        rw [hba]
        exact getWords_stable _ sa c₁ ws sb t hgw
          (shapeEq_trans (shapeEq_symm hsea) hse) (cacheLe_trans hclb hcl)
      simp only [hgw']
      exact ih sb c₁ _ out s₁ t h
        (shapeEq_trans (shapeEq_symm (shapeEq_trans hsea hseab)) hse) hcl
    · rename_i hend
      have hcla : CacheLe sa s₁ := (queryLoop_frame _ _ _ _ _ _ h).2
      have htr' : transitionF (bigFuel t) t v [c] = some (c₁, t) := by
        rw [hbf]
        exact transitionF_stable _ s v [c] c₁ sa t htr hse (cacheLe_trans hcla hcl)
      simp only [htr']
      have hend' : ¬ (t.nodes c₁).end_ = true := by
        have h1 : (t.nodes c₁).end_ = (s.nodes c₁).end_ := (hse.2.2.2 c₁).2.2.1
        have h2 : (sa.nodes c₁).end_ = (s.nodes c₁).end_ := (hsea.2.2.2 c₁).2.2.1
        rw [h1, ← h2]; exact hend
      rw [if_neg hend']
      exact ih sa c₁ res out s₁ t h
        (shapeEq_trans (shapeEq_symm hsea) hse) hcl



end AhoCorasick

/-- C9: `query` never changes the observable state: whenever it returns, the
dictionary and ghost sets, the allocation counter, the trie shape (children,
parent, char), every terminal flag and every `suffixOf` set are unchanged
(`ShapeEq` lists exactly these, leaving only the memoized suffix and word
caches free to change); and re-running the same query on the resulting state
returns the same result set (and changes nothing further). -/
theorem C9_query_observably_pure (s : AhoCorasick) (hay : Str) (res : Finset Str)
    (s₁ : AhoCorasick) (h : query s hay = some (res, s₁)) :
    ShapeEq s s₁ ∧ query s₁ hay = some (res, s₁) :=
  ⟨(query_frame s hay res s₁ h).1,
   queryLoop_stable hay s ROOT ∅ res s₁ s₁ h (query_frame s hay res s₁ h).1
     (cacheLe_refl s₁)⟩

/-- Witness for C9 at a concrete input: the query `"ab"` on the state holding
the single word "ab". -/
theorem C9_witness : ShapeEq cs1 cs2 ∧ query cs2 abW = some (qres1, cs2) :=
  C9_query_observably_pure cs1 abW qres1 cs2 rfl

namespace AhoCorasick

/-- Well-formedness of an automaton state.  These are the structural invariants
that hold in every reachable state: identifiers are allocated below `next`,
parent identifiers strictly decrease, child edges and parent/char fields agree,
every memoized suffix designates a strictly shorter proper suffix of the node's
word (possibly not the longest one — nothing ever invalidates memos), every
memoized word is the node's actual word, end flags mark exactly words that are
in the dictionary, every dictionary word has a complete end-flagged path, and
no `suffixOf` set is ever populated. -/
structure WF (s : AhoCorasick) : Prop where
  hnext : 1 ≤ s.next
  root_char : (s.nodes ROOT).char = []
  root_parent : (s.nodes ROOT).parent = EMPTY
  root_suffix : (s.nodes ROOT).suffix = some ROOT
  root_word : (s.nodes ROOT).word = some []
  root_end : (s.nodes ROOT).end_ = false
  hchild : ∀ u, Dom s u → ∀ ch v, (s.nodes u).children ch = some v →
    Dom s v ∧ u < v ∧ (s.nodes v).parent = u ∧ (s.nodes v).char = ch ∧ ch.length = 1
  hparent : ∀ v, Dom s v → v ≠ ROOT →
    0 ≤ (s.nodes v).parent ∧ (s.nodes v).parent < v ∧ Dom s ((s.nodes v).parent) ∧
    (s.nodes ((s.nodes v).parent)).children ((s.nodes v).char) = some v
  hsuffix : ∀ v, Dom s v → v ≠ ROOT → ∀ u, (s.nodes v).suffix = some u →
    Dom s u ∧ spell s u <:+ spell s v ∧ (spell s u).length < (spell s v).length
  hword : ∀ v, Dom s v → ∀ w, (s.nodes v).word = some w → w = spell s v
  hend : ∀ v, Dom s v → (s.nodes v).end_ = true → spell s v ∈ s.dict
  hdictpath : ∀ w ∈ s.dict, ∃ v, followPath s ROOT w = some v ∧ (s.nodes v).end_ = true
  hdictne : ∀ w ∈ s.dict, w ≠ []
  hdisj : ∀ w ∈ s.dict, w ∉ s.ghosts
  hsuffixOf : ∀ v, Dom s v → (s.nodes v).suffixOf = []

lemma dom_root (s : AhoCorasick) : Dom s ROOT := Or.inl rfl

lemma dom_nonneg {s : AhoCorasick} {v : Int} (h : Dom s v) : 0 ≤ v := by
  rcases h with h | ⟨h, _⟩
  · rw [h]; rfl
  · omega

lemma dom_le_next {s : AhoCorasick} (hs : WF s) {v : Int} (h : Dom s v) : v ≤ s.next := by
  have := hs.hnext
  rcases h with h | ⟨_, h2⟩
  · rw [h]; unfold ROOT; omega
  · exact h2

lemma dom_congr {s t : AhoCorasick} (h : t.next = s.next) (v : Int) :
    Dom t v ↔ Dom s v := by
  unfold Dom; rw [h]

lemma dom_ne_root {s : AhoCorasick} {v : Int} (h : Dom s v) (hv : v ≠ ROOT) :
    2 ≤ v ∧ v ≤ s.next := by
  rcases h with h | h
  · exact absurd h hv
  · exact h

/-- `spellF` only reads the parent and char fields along the parent chain, so
any two states that agree on those fields at allocated nodes spell the same
words there.  The well-formedness of `s` guides the chain. -/
lemma spellF_agree {s t : AhoCorasick} (hs : WF s)
    (hag : ∀ u, Dom s u → (t.nodes u).parent = (s.nodes u).parent ∧
      (t.nodes u).char = (s.nodes u).char) :
    ∀ (f : Nat) (v : Int), Dom s v → spellF f t v = spellF f s v := by
  intro f
  induction f with
  | zero => intro v _; rfl
  | succ f ih =>
    intro v hv
    rw [spellF, spellF]
    by_cases hroot : v = ROOT
    · rw [if_pos hroot, if_pos hroot]
    · rw [if_neg hroot, if_neg hroot, (hag v hv).1, (hag v hv).2]
      have hp := hs.hparent v hv hroot
      rw [ih ((s.nodes v).parent) hp.2.2.1]

/-- `spellF` is independent of the fuel once the fuel exceeds the node
identifier (parent identifiers strictly decrease along the chain). -/
lemma spellF_stable {s : AhoCorasick} (hs : WF s) :
    ∀ (n : Nat) (v : Int), Dom s v → v.toNat < n →
    ∀ (f g : Nat), v.toNat < f → v.toNat < g → spellF f s v = spellF g s v := by
  intro n
  induction n with
  | zero => intro v _ h; omega
  | succ n ih =>
    intro v hv hvn f g hf hg
    by_cases hroot : v = ROOT
    · subst hroot
      cases f with
      | zero => omega
      | succ f =>
        cases g with
        | zero => omega
        | succ g => rw [spellF, spellF, if_pos rfl, if_pos rfl]
    · cases f with
      | zero =>
        have : 0 ≤ v := dom_nonneg hv
        omega
      | succ f =>
        cases g with
        | zero =>
          have : 0 ≤ v := dom_nonneg hv
          omega
        | succ g =>
          rw [spellF, spellF, if_neg hroot, if_neg hroot]
          have hp := hs.hparent v hv hroot
          have hptn : ((s.nodes v).parent).toNat < v.toNat := by
            have h0 : 0 ≤ (s.nodes v).parent := hp.1
            have h1 : (s.nodes v).parent < v := hp.2.1
            omega
          rw [ih ((s.nodes v).parent) hp.2.2.1 (by omega) f g (by omega) (by omega)]

lemma spell_root (s : AhoCorasick) : spell s ROOT = [] := rfl

/-- The word of a non-root node is the word of its parent followed by its
character. -/
lemma spell_parent {s : AhoCorasick} (hs : WF s) {v : Int} (hv : Dom s v)
    (hroot : v ≠ ROOT) :
    spell s v = spell s ((s.nodes v).parent) ++ (s.nodes v).char := by
  have hp := hs.hparent v hv hroot
  have hptn : ((s.nodes v).parent).toNat < v.toNat := by
    have h0 : 0 ≤ (s.nodes v).parent := hp.1
    have h1 : (s.nodes v).parent < v := hp.2.1
    omega
  rw [spell, spellF, if_neg hroot]
  rw [spellF_stable hs (v.toNat + 1) ((s.nodes v).parent) hp.2.2.1 (by omega)
    v.toNat (((s.nodes v).parent).toNat + 1) (by omega) (by omega)]
  rfl

/-- The word of a child node extends the word of its parent by the edge key. -/
lemma spell_child {s : AhoCorasick} (hs : WF s) {u v : Int} {ch : Str} (hu : Dom s u)
    (h : (s.nodes u).children ch = some v) : spell s v = spell s u ++ ch := by
  obtain ⟨hdv, hlt, hpar, hchar, _⟩ := hs.hchild u hu ch v h
  have hroot : v ≠ ROOT := by
    have := dom_nonneg hu
    unfold ROOT
    omega
  rw [spell_parent hs hdv hroot, hpar, hchar]

lemma char_length {s : AhoCorasick} (hs : WF s) {v : Int} (hv : Dom s v)
    (hroot : v ≠ ROOT) : (s.nodes v).char.length = 1 := by
  have hp := hs.hparent v hv hroot
  exact (hs.hchild _ hp.2.2.1 _ _ hp.2.2.2).2.2.2.2

/-- Node depth (the length of the spelled word) is bounded by the node
identifier. -/
lemma spell_length_le {s : AhoCorasick} (hs : WF s) :
    ∀ (n : Nat) (v : Int), Dom s v → v.toNat < n → (spell s v).length ≤ v.toNat := by
  intro n
  induction n with
  | zero => intro v _ h; omega
  | succ n ih =>
    intro v hv hvn
    by_cases hroot : v = ROOT
    · subst hroot; rw [spell_root]; exact Nat.zero_le _
    · have hp := hs.hparent v hv hroot
      have hptn : ((s.nodes v).parent).toNat < v.toNat := by
        have h0 : 0 ≤ (s.nodes v).parent := hp.1
        have h1 : (s.nodes v).parent < v := hp.2.1
        omega
      rw [spell_parent hs hv hroot, List.length_append,
        char_length hs hv hroot]
      have := ih ((s.nodes v).parent) hp.2.2.1 (by omega)
      omega

lemma followPath_append (s : AhoCorasick) (w₁ w₂ : Str) :
    ∀ u, followPath s u (w₁ ++ w₂) =
      (followPath s u w₁).bind (fun v => followPath s v w₂) := by
  induction w₁ with
  | nil => intro u; rfl
  | cons c rest ih =>
    intro u
    rw [List.cons_append, followPath, followPath]
    cases (s.nodes u).children [c] with
    | some child => exact ih child
    | none => rfl

/-- Any node reached by following edges spells the starting node's word
followed by the path. -/
lemma followPath_sound {s : AhoCorasick} (hs : WF s) :
    ∀ (w : Str) (u v : Int), Dom s u → followPath s u w = some v →
    Dom s v ∧ spell s v = spell s u ++ w := by
  intro w
  induction w with
  | nil =>
    intro u v hu h
    rw [followPath] at h
    cases h
    exact ⟨hu, by simp⟩
  | cons c rest ih =>
    intro u v hu h
    rw [followPath] at h
    cases hc : (s.nodes u).children [c] with
    | none => rw [hc] at h; cases h
    | some child =>
      rw [hc] at h
      obtain ⟨hdc, hsp⟩ := ih child v (hs.hchild u hu [c] child hc).1 h
      refine ⟨hdc, ?_⟩
      rw [hsp, spell_child hs hu hc]
      simp

/-- Every allocated node is reached by following its own word from the root. -/
lemma spell_followPath {s : AhoCorasick} (hs : WF s) :
    ∀ (n : Nat) (v : Int), Dom s v → v.toNat < n →
    followPath s ROOT (spell s v) = some v := by
  intro n
  induction n with
  | zero => intro v _ h; omega
  | succ n ih =>
    intro v hv hvn
    by_cases hroot : v = ROOT
    · subst hroot; rw [spell_root]; rfl
    · have hp := hs.hparent v hv hroot
      have hptn : ((s.nodes v).parent).toNat < v.toNat := by
        have h0 : 0 ≤ (s.nodes v).parent := hp.1
        have h1 : (s.nodes v).parent < v := hp.2.1
        omega
      obtain ⟨c, hc⟩ := List.length_eq_one.mp (char_length hs hv hroot)
      rw [spell_parent hs hv hroot, hc, followPath_append,
        ih ((s.nodes v).parent) hp.2.2.1 (by omega)]
      show followPath s ((s.nodes v).parent) [c] = some v
      rw [followPath]
      rw [← hc, hp.2.2.2]
      rfl

/-- Distinct allocated nodes spell distinct words. -/
lemma spell_inj {s : AhoCorasick} (hs : WF s) {u v : Int} (hu : Dom s u)
    (hv : Dom s v) (h : spell s u = spell s v) : u = v := by
  have h1 := spell_followPath hs (u.toNat + 1) u hu (by omega)
  have h2 := spell_followPath hs (v.toNat + 1) v hv (by omega)
  rw [h] at h1
  rw [h1] at h2
  exact Option.some.injEq .. ▸ h2

lemma spell_shapeEq {s t : AhoCorasick} (hs : WF s) (h : ShapeEq s t) {v : Int}
    (hv : Dom s v) : spell t v = spell s v := by
  rw [spell, spell]
  exact spellF_agree hs (fun u _ => ⟨(h.2.2.2 u).2.2.2.1, (h.2.2.2 u).1⟩) _ v hv

lemma spell_nonempty {s : AhoCorasick} (hs : WF s) {v : Int} (hv : Dom s v)
    (hroot : v ≠ ROOT) : (spell s v).length ≠ 0 := by
  rw [spell_parent hs hv hroot, List.length_append, char_length hs hv hroot]
  omega

end AhoCorasick

namespace AhoCorasick

lemma isSuffix_append_append {l₁ l₂ t : Str} (h : l₁ <:+ l₂) : l₁ ++ t <:+ l₂ ++ t := by
  obtain ⟨u, rfl⟩ := h
  exact ⟨u, by rw [List.append_assoc]⟩

lemma followPath_shapeEq {s t : AhoCorasick} (hse : ShapeEq s t) :
    ∀ (w : Str) (u : Int), followPath t u w = followPath s u w := by
  intro w
  induction w with
  | nil => intro u; rfl
  | cons c rest ih =>
    intro u
    rw [followPath, followPath, (hse.2.2.2 u).2.1]
    cases (s.nodes u).children [c] with
    | some child => exact ih child
    | none => rfl

/-- A same-shaped state whose memo fields still satisfy the memo invariants is
well-formed as soon as the original is. -/
lemma wf_shapeEq {s t : AhoCorasick} (hs : WF s) (hse : ShapeEq s t)
    (hsuf : ∀ x u, Dom s x → x ≠ ROOT → (t.nodes x).suffix = some u →
      Dom s u ∧ spell s u <:+ spell s x ∧ (spell s u).length < (spell s x).length)
    (hrs : (t.nodes ROOT).suffix = some ROOT)
    (hwd : ∀ x w, Dom s x → (t.nodes x).word = some w → w = spell s x)
    (hrw : (t.nodes ROOT).word = some []) : WF t := by
  have hd := hse.1
  have hg := hse.2.1
  have hn := hse.2.2.1
  have hfields := hse.2.2.2
  have hdom : ∀ x, Dom t x ↔ Dom s x := dom_congr hn
  have hspell : ∀ x, Dom s x → spell t x = spell s x := fun x hx => spell_shapeEq hs hse hx
  refine ⟨?_, ?_, ?_, hrs, hrw, ?_, ?_, ?_, ?_, ?_, ?_, ?_, ?_, ?_, ?_⟩
  · rw [hn]; exact hs.hnext
  · rw [(hfields ROOT).1]; exact hs.root_char
  · rw [(hfields ROOT).2.2.2.1]; exact hs.root_parent
  · rw [(hfields ROOT).2.2.1]; exact hs.root_end
  · intro u hu ch v hcv
    have hu' := (hdom u).mp hu
    rw [(hfields u).2.1] at hcv
    obtain ⟨h1, h2, h3, h4, h5⟩ := hs.hchild u hu' ch v hcv
    exact ⟨(hdom v).mpr h1, h2, ((hfields v).2.2.2.1).trans h3,
      ((hfields v).1).trans h4, h5⟩
  · intro v hv hvroot
    have hv' := (hdom v).mp hv
    obtain ⟨h1, h2, h3, h4⟩ := hs.hparent v hv' hvroot
    rw [(hfields v).2.2.2.1]
    refine ⟨h1, h2, (hdom _).mpr h3, ?_⟩
    rw [(hfields _).2.1, (hfields v).1]
    exact h4
  · intro v hv hvroot u hsu
    have hv' := (hdom v).mp hv
    obtain ⟨h1, h2, h3⟩ := hsuf v u hv' hvroot hsu
    rw [hspell v hv', hspell u h1]
    exact ⟨(hdom u).mpr h1, h2, h3⟩
  · intro v hv w hw
    have hv' := (hdom v).mp hv
    rw [hspell v hv']
    exact hwd v w hv' hw
  · intro v hv he
    have hv' := (hdom v).mp hv
    rw [(hfields v).2.2.1] at he
    rw [hspell v hv', hd]
    exact hs.hend v hv' he
  · intro w hw
    rw [hd] at hw
    obtain ⟨v, h1, h2⟩ := hs.hdictpath w hw
    refine ⟨v, ?_, ?_⟩
    · rw [followPath_shapeEq hse]; exact h1
    · rw [(hfields v).2.2.1]; exact h2
  · intro w hw; rw [hd] at hw; exact hs.hdictne w hw
  · intro w hw; rw [hd] at hw; rw [hg]; exact hs.hdisj w hw
  · intro v hv
    rw [(hfields v).2.2.2.2]
    exact hs.hsuffixOf v ((hdom v).mp hv)

/-- Memoizing a correct (proper-suffix) failure link preserves well-formedness. -/
lemma wf_setSuffix {s : AhoCorasick} (hs : WF s) {v u : Int} (hv : Dom s v)
    (hvroot : v ≠ ROOT) (hu : Dom s u) (hsuf : spell s u <:+ spell s v)
    (hlen : (spell s u).length < (spell s v).length) :
    WF (update s v fun nd => { nd with suffix := some u }) := by
  refine wf_shapeEq hs (shapeEq_update_suffix ..) ?_ ?_ ?_ ?_
  · intro x y hx hxroot hxy
    by_cases hxv : x = v
    · subst hxv
      rw [update_node_eq] at hxy
      cases hxy
      exact ⟨hu, hsuf, hlen⟩
    · rw [update_node_ne _ _ _ _ hxv] at hxy
      exact hs.hsuffix x hx hxroot y hxy
  · rw [update_node_ne _ _ _ _ (fun h => hvroot h.symm)]
    exact hs.root_suffix
  · intro x w hx hxw
    by_cases hxv : x = v
    · subst hxv
      rw [update_node_eq] at hxw
      exact hs.hword x hx w hxw
    · rw [update_node_ne _ _ _ _ hxv] at hxw
      exact hs.hword x hx w hxw
  · by_cases hrv : ROOT = v
    · rw [hrv, update_node_eq]
      rw [← hrv]
      exact hs.root_word
    · rw [update_node_ne _ _ _ _ hrv]
      exact hs.root_word

/-- Memoizing a node's actual word preserves well-formedness. -/
lemma wf_setWord {s : AhoCorasick} (hs : WF s) {v : Int} (w : Str) (hv : Dom s v)
    (hw : w = spell s v) :
    WF (update s v fun nd => { nd with word := some w }) := by
  refine wf_shapeEq hs (shapeEq_update_word ..) ?_ ?_ ?_ ?_
  · intro x y hx hxroot hxy
    by_cases hxv : x = v
    · subst hxv
      rw [update_node_eq] at hxy
      exact hs.hsuffix x hx hxroot y hxy
    · rw [update_node_ne _ _ _ _ hxv] at hxy
      exact hs.hsuffix x hx hxroot y hxy
  · by_cases hrv : ROOT = v
    · rw [hrv, update_node_eq]
      show (s.nodes v).suffix = some v
      rw [← hrv]; exact hs.root_suffix
    · rw [update_node_ne _ _ _ _ hrv]
      exact hs.root_suffix
  · intro x y hx hxy
    by_cases hxv : x = v
    · subst hxv
      rw [update_node_eq] at hxy
      cases hxy
      exact hw
    · rw [update_node_ne _ _ _ _ hxv] at hxy
      exact hs.hword x hx y hxy
  · by_cases hrv : ROOT = v
    · rw [hrv, update_node_eq]
      have : w = spell s ROOT := hrv ▸ hw
      rw [this, spell_root]
    · rw [update_node_ne _ _ _ _ hrv]
      exact hs.root_word

end AhoCorasick

namespace AhoCorasick

/-- Totality (fuel sufficiency) and partial correctness of the two mutually
recursive lazy helpers on well-formed states: with fuel at least twice the
node's depth plus a constant, `_getSuffix` returns a strictly shorter suffix of
the node's word and `_transition` returns a node spelling a suffix of the
current word extended by the consumed character; well-formedness is
preserved. -/
lemma getSuffixF_transitionF_total : ∀ f : Nat,
    (∀ s v, WF s → Dom s v → 2 * (spell s v).length + 2 ≤ f →
      ∃ r s₁, getSuffixF f s v = some (r, s₁) ∧ WF s₁ ∧ Dom s r ∧
        spell s r <:+ spell s v ∧ ((spell s r).length < (spell s v).length ∨ v = ROOT)) ∧
    (∀ s v ch, WF s → Dom s v → 2 * (spell s v).length + 3 ≤ f →
      ∃ r s₁, transitionF f s v ch = some (r, s₁) ∧ WF s₁ ∧ Dom s r ∧
        spell s r <:+ spell s v ++ ch ∧
        (spell s r).length ≤ (spell s v).length + ch.length) := by
  intro f
  induction f using Nat.strong_induction_on with
  | _ f IH =>
  constructor
  · intro s v hs hv hfuel
    obtain ⟨f₀, rfl⟩ : ∃ f₀, f = f₀ + 1 := ⟨f - 1, by omega⟩
    cases hm : (s.nodes v).suffix with
    | some u =>
      refine ⟨u, s, by rw [getSuffixF, hm], hs, ?_⟩
      by_cases hroot : v = ROOT
      · subst hroot
        rw [hs.root_suffix] at hm
        cases hm
        exact ⟨dom_root s, List.suffix_refl _, Or.inr rfl⟩
      · obtain ⟨h1, h2, h3⟩ := hs.hsuffix v hv hroot u hm
        exact ⟨h1, h2, Or.inl h3⟩
    | none =>
      have hroot : v ≠ ROOT := by
        intro h; subst h; rw [hs.root_suffix] at hm; cases hm
      have hp := hs.hparent v hv hroot
      have hdlen : (spell s v).length = (spell s ((s.nodes v).parent)).length + 1 := by
        rw [spell_parent hs hv hroot, List.length_append, char_length hs hv hroot]
      by_cases hpr : (s.nodes v).parent = ROOT
      · refine ⟨ROOT, update s v fun nd => { nd with suffix := some ROOT },
          ?_, ?_, dom_root s, List.nil_suffix, Or.inl ?_⟩
        · rw [getSuffixF, hm]
          simp [hpr]
        · refine wf_setSuffix hs hv hroot (dom_root s) (List.nil_suffix) ?_
          simp only [spell_root, List.length_nil]
          have := spell_nonempty hs hv hroot
          omega
        · simp only [spell_root, List.length_nil]
          have := spell_nonempty hs hv hroot
          omega
      · obtain ⟨ps, s₁, heq1, hwf1, hdps, hsufps, hlenps⟩ :=
          (IH f₀ (by omega)).1 s ((s.nodes v).parent) hs hp.2.2.1 (by omega)
        have hse1 : ShapeEq s s₁ := ((getSuffixF_transitionF_frame f₀).1 _ _ _ _ heq1).1
        have hlps : (spell s ps).length < (spell s ((s.nodes v).parent)).length := by
          rcases hlenps with h | h
          · exact h
          · exact absurd h hpr
        obtain ⟨suf, s₂, heq2, hwf2, hdsuf, hsuf2, hlen2⟩ :=
          (IH f₀ (by omega)).2 s₁ ps ((s₁.nodes v).char) hwf1
            ((dom_congr hse1.2.2.1 ps).mpr hdps)
            (by rw [spell_shapeEq hs hse1 hdps]; omega)
        have hse2 : ShapeEq s₁ s₂ := ((getSuffixF_transitionF_frame f₀).2 _ _ _ _ _ heq2).1
        have hse12 : ShapeEq s s₂ := shapeEq_trans hse1 hse2
        have hdsuf' : Dom s suf := (dom_congr hse1.2.2.1 suf).mp hdsuf
        have hchar : (s₁.nodes v).char = (s.nodes v).char := (hse1.2.2.2 v).1
        have hsps : spell s₁ ps = spell s ps := spell_shapeEq hs hse1 hdps
        have hssuf : spell s₁ suf = spell s suf := spell_shapeEq hs hse1 hdsuf'
        have hsufv : spell s suf <:+ spell s v := by
          rw [hssuf, hsps, hchar] at hsuf2
          have h2 : spell s ps ++ (s.nodes v).char <:+
              spell s ((s.nodes v).parent) ++ (s.nodes v).char :=
            isSuffix_append_append hsufps
          rw [← spell_parent hs hv hroot] at h2
          exact hsuf2.trans h2
        have hlenv : (spell s suf).length < (spell s v).length := by
          rw [hssuf, hsps, hchar, char_length hs hv hroot] at hlen2
          omega
        refine ⟨suf, update s₂ v fun nd => { nd with suffix := some suf },
          ?_, ?_, hdsuf', hsufv, Or.inl hlenv⟩
        · rw [getSuffixF, hm]
          simp [hpr, heq1, heq2]
        · have hv₂ : Dom s₂ v := (dom_congr hse12.2.2.1 v).mpr hv
          have hd₂ : Dom s₂ suf := (dom_congr hse12.2.2.1 suf).mpr hdsuf'
          refine wf_setSuffix hwf2 hv₂ hroot hd₂ ?_ ?_
          · rw [spell_shapeEq hs hse12 hdsuf', spell_shapeEq hs hse12 hv]
            exact hsufv
          · rw [spell_shapeEq hs hse12 hdsuf', spell_shapeEq hs hse12 hv]
            exact hlenv
  · intro s v ch hs hv hfuel
    obtain ⟨f₀, rfl⟩ : ∃ f₀, f = f₀ + 1 := ⟨f - 1, by omega⟩
    cases hc : (s.nodes v).children ch with
    | some child =>
      obtain ⟨hd1, _, _, _, _⟩ := hs.hchild v hv ch child hc
      refine ⟨child, s, by rw [transitionF, hc], hs, hd1, ?_, ?_⟩
      · rw [spell_child hs hv hc]
      · rw [spell_child hs hv hc, List.length_append]
    | none =>
      by_cases hroot : v = ROOT
      · subst hroot
        refine ⟨ROOT, s, ?_, hs, dom_root s, List.nil_suffix, by simp⟩
        rw [transitionF, hc]
        simp
      · obtain ⟨u, s₁, heq1, hwf1, hdu, hsufu, hlenu⟩ :=
          (IH f₀ (by omega)).1 s v hs hv (by omega)
        have hlu : (spell s u).length < (spell s v).length := by
          rcases hlenu with h | h
          · exact h
          · exact absurd h hroot
        have hse1 : ShapeEq s s₁ := ((getSuffixF_transitionF_frame f₀).1 _ _ _ _ heq1).1
        obtain ⟨r, s₂, heq2, hwf2, hdr, hsufr, hlenr⟩ :=
          (IH f₀ (by omega)).2 s₁ u ch hwf1 ((dom_congr hse1.2.2.1 u).mpr hdu)
            (by rw [spell_shapeEq hs hse1 hdu]; omega)
        have hdr' : Dom s r := (dom_congr hse1.2.2.1 r).mp hdr
        have hsu : spell s₁ u = spell s u := spell_shapeEq hs hse1 hdu
        have hsr : spell s₁ r = spell s r := spell_shapeEq hs hse1 hdr'
        refine ⟨r, s₂, ?_, hwf2, hdr', ?_, ?_⟩
        · rw [transitionF, hc]
          simp [hroot, heq1, heq2]
        · rw [hsu, hsr] at hsufr
          exact hsufr.trans (isSuffix_append_append hsufu)
        · rw [hsu, hsr] at hlenr
          omega

end AhoCorasick

namespace AhoCorasick

/-- Totality of `_getWord` on well-formed states: with fuel exceeding the
depth, it returns exactly the node's word and preserves well-formedness. -/
lemma getWordF_total {s : AhoCorasick} (hs : WF s) :
    ∀ (n : Nat) (v : Int), Dom s v → v.toNat < n → ∀ f, (spell s v).length + 1 ≤ f →
    ∃ s₁, getWordF f s v = some (spell s v, s₁) ∧ WF s₁ := by
  intro n
  induction n with
  | zero => intro v _ h; omega
  | succ n ih =>
    intro v hv hvn f hf
    obtain ⟨f₀, rfl⟩ : ∃ f₀, f = f₀ + 1 := ⟨f - 1, by omega⟩
    cases hm : (s.nodes v).word with
    | some w =>
      have hw : w = spell s v := hs.hword v hv w hm
      subst hw
      exact ⟨s, by rw [getWordF, hm], hs⟩
    | none =>
      have hroot : v ≠ ROOT := by
        intro h; subst h; rw [hs.root_word] at hm; cases hm
      have hp := hs.hparent v hv hroot
      have hptn : ((s.nodes v).parent).toNat < v.toNat := by
        have h0 : 0 ≤ (s.nodes v).parent := hp.1
        have h1 : (s.nodes v).parent < v := hp.2.1
        omega
      have hdlen : (spell s v).length = (spell s ((s.nodes v).parent)).length + 1 := by
        rw [spell_parent hs hv hroot, List.length_append, char_length hs hv hroot]
      obtain ⟨s₁, heq1, hwf1⟩ := ih ((s.nodes v).parent) hp.2.2.1 (by omega) f₀ (by omega)
      have hse1 : ShapeEq s s₁ := (getWordF_frame f₀ _ _ _ _ heq1).1
      have hchar : (s₁.nodes v).char = (s.nodes v).char := (hse1.2.2.2 v).1
      refine ⟨update s₁ v fun nd =>
        { nd with word := some (spell s ((s.nodes v).parent) ++ (s₁.nodes v).char) },
        ?_, ?_⟩
      · rw [getWordF, hm]
        simp only [heq1]
        rw [hchar, ← spell_parent hs hv hroot]
      · refine wf_setWord hwf1 _ ((dom_congr hse1.2.2.1 v).mpr hv) ?_
        rw [hchar, ← spell_parent hs hv hroot, spell_shapeEq hs hse1 hv]

lemma mem_foldl_insert :
    ∀ (ws : List Str) (res : Finset Str) (w : Str),
    w ∈ ws.foldl (fun r x => insert x r) res ↔ w ∈ res ∨ w ∈ ws := by
  intro ws
  induction ws with
  | nil => intro res w; simp
  | cons x rest ih =>
    intro res w
    rw [List.foldl_cons, ih]
    simp [Finset.mem_insert]
    tauto

/-- Totality and soundness of the suffix-chain loop of `_getWords`: it appends
words that are active and are suffixes of the starting node's word. -/
lemma getWordsLoop_total :
    ∀ (n : Nat) (s : AhoCorasick) (v : Int), WF s → Dom s v → (spell s v).length < n →
    ∀ f, 2 * (spell s v).length + 3 ≤ f → ∀ acc,
    ∃ extra s₁, getWordsLoop f s v acc = some (acc ++ extra, s₁) ∧ WF s₁ ∧
      ∀ w ∈ extra, w ∈ s.dict ∧ w <:+ spell s v := by
  intro n
  induction n with
  | zero => intro s v _ _ h; omega
  | succ n ih =>
    intro s v hs hv hvn f hf acc
    obtain ⟨f₀, rfl⟩ : ∃ f₀, f = f₀ + 1 := ⟨f - 1, by omega⟩
    by_cases hroot : v = ROOT
    · refine ⟨[], s, ?_, hs, by simp⟩
      rw [getWordsLoop, if_pos hroot]
      simp
    · obtain ⟨c₁, sa, heq1, hwfa, hdc, hsufc, hlenc⟩ :=
        (getSuffixF_transitionF_total f₀).1 s v hs hv (by omega)
      have hlc : (spell s c₁).length < (spell s v).length := by
        rcases hlenc with h | h
        · exact h
        · exact absurd h hroot
      have hse1 : ShapeEq s sa := ((getSuffixF_transitionF_frame f₀).1 _ _ _ _ heq1).1
      have hdca : Dom sa c₁ := (dom_congr hse1.2.2.1 c₁).mpr hdc
      have hsca : spell sa c₁ = spell s c₁ := spell_shapeEq hs hse1 hdc
      by_cases hend : (sa.nodes c₁).end_ = true
      · obtain ⟨sb, heqw, hwfb⟩ := getWordF_total hwfa (c₁.toNat + 1) c₁ hdca (by omega) f₀
          (by rw [hsca]; omega)
        have hseb : ShapeEq sa sb := (getWordF_frame f₀ _ _ _ _ heqw).1
        have hdcb : Dom sb c₁ := (dom_congr hseb.2.2.1 c₁).mpr hdca
        have hscb : spell sb c₁ = spell s c₁ := by
          rw [spell_shapeEq hwfa hseb hdca, hsca]
        obtain ⟨extra, s₁, heql, hwf1, hex⟩ := ih sb c₁ hwfb hdcb (by rw [hscb]; omega)
          f₀ (by rw [hscb]; omega) (acc ++ [spell sa c₁])
        refine ⟨spell sa c₁ :: extra, s₁, ?_, hwf1, ?_⟩
        · rw [getWordsLoop, if_neg hroot]
          simp only [heq1]
          rw [if_pos hend]
          simp only [heqw, heql]
          simp
        · intro w hw
          rcases List.mem_cons.mp hw with hw | hw
          · subst hw
            constructor
            · rw [← hse1.1]
              exact hwfa.hend c₁ hdca hend
            · rw [hsca]; exact hsufc
          · obtain ⟨hd1, hd2⟩ := hex w hw
            constructor
            · rw [← hse1.1, ← hseb.1]
              exact hd1
            · rw [hscb] at hd2
              exact hd2.trans hsufc
      · obtain ⟨extra, s₁, heql, hwf1, hex⟩ := ih sa c₁ hwfa hdca (by rw [hsca]; omega)
          f₀ (by rw [hsca]; omega) acc
        refine ⟨extra, s₁, ?_, hwf1, ?_⟩
        · rw [getWordsLoop, if_neg hroot]
          simp only [heq1]
          rw [if_neg hend]
          exact heql
        · intro w hw
          obtain ⟨hd1, hd2⟩ := hex w hw
          constructor
          · rw [← hse1.1]; exact hd1
          · rw [hsca] at hd2
            exact hd2.trans hsufc

/-- Totality and soundness of `_getWords`: every returned word is active and a
suffix of the node's word. -/
lemma getWords_total {s : AhoCorasick} (hs : WF s) {v : Int} (hv : Dom s v)
    (f : Nat) (hf : 2 * (spell s v).length + 3 ≤ f) :
    ∃ out s₁, getWords f s v = some (out, s₁) ∧ WF s₁ ∧
      ∀ w ∈ out, w ∈ s.dict ∧ w <:+ spell s v := by
  rw [getWords]
  by_cases hend : (s.nodes v).end_ = true
  · obtain ⟨sa, heqw, hwfa⟩ := getWordF_total hs (v.toNat + 1) v hv (by omega) f (by omega)
    have hsea : ShapeEq s sa := (getWordF_frame f _ _ _ _ heqw).1
    have hdva : Dom sa v := (dom_congr hsea.2.2.1 v).mpr hv
    have hsva : spell sa v = spell s v := spell_shapeEq hs hsea hv
    obtain ⟨extra, s₁, heql, hwf1, hex⟩ := getWordsLoop_total ((spell sa v).length + 1)
      sa v hwfa hdva (by omega) f (by rw [hsva]; omega) [spell s v]
    refine ⟨spell s v :: extra, s₁, ?_, hwf1, ?_⟩
    · rw [if_pos hend]
      simp only [heqw, heql]
      simp
    · intro w hw
      rcases List.mem_cons.mp hw with hw | hw
      · subst hw
        exact ⟨hs.hend v hv hend, List.suffix_refl _⟩
      · obtain ⟨hd1, hd2⟩ := hex w hw
        constructor
        · rw [← hsea.1]; exact hd1
        · rw [hsva] at hd2; exact hd2
  · obtain ⟨extra, s₁, heql, hwf1, hex⟩ := getWordsLoop_total ((spell s v).length + 1)
      s v hs hv (by omega) f (by omega) []
    refine ⟨extra, s₁, ?_, hwf1, hex⟩
    rw [if_neg hend]
    simpa using heql

lemma substr_of_suffix {w p rest : Str} (h : w <:+ p) : Substr w (p ++ rest) := by
  obtain ⟨u, rfl⟩ := h
  exact ⟨u, rest, by simp⟩

/-- Totality and soundness of the scanning loop of `query`: everything added to
the result set is an active word occurring in the haystack. -/
lemma queryLoop_total :
    ∀ (rest : Str) (s : AhoCorasick) (curr : Int) (res : Finset Str) (pre : Str),
    WF s → Dom s curr → spell s curr <:+ pre →
    ∃ out s₁, queryLoop s curr rest res = some (out, s₁) ∧ WF s₁ ∧
      ∀ w ∈ out, w ∈ res ∨ (w ∈ s.dict ∧ Substr w (pre ++ rest)) := by
  intro rest
  induction rest with
  | nil =>
    intro s curr res pre hs hd hpre
    exact ⟨res, s, rfl, hs, fun w hw => Or.inl hw⟩
  | cons c rest ih =>
    intro s curr res pre hs hd hpre
    have hfuel : 2 * (spell s curr).length + 3 ≤ bigFuel s := by
      have h1 : (spell s curr).length ≤ curr.toNat :=
        spell_length_le hs (curr.toNat + 1) curr hd (by omega)
      have h2 : curr ≤ s.next := dom_le_next hs hd
      have h3 : 0 ≤ curr := dom_nonneg hd
      rw [bigFuel]
      omega
    obtain ⟨c₁, sa, heqt, hwfa, hdc, hsufc, hlenc⟩ :=
      (getSuffixF_transitionF_total (bigFuel s)).2 s curr [c] hs hd hfuel
    have hsea : ShapeEq s sa := ((getSuffixF_transitionF_frame _).2 _ _ _ _ _ heqt).1
    have hdca : Dom sa c₁ := (dom_congr hsea.2.2.1 c₁).mpr hdc
    have hsca : spell sa c₁ = spell s c₁ := spell_shapeEq hs hsea hdc
    have hprec : spell s c₁ <:+ pre ++ [c] := hsufc.trans (isSuffix_append_append hpre)
    by_cases hend : (sa.nodes c₁).end_ = true
    · have hfw : 2 * (spell sa c₁).length + 3 ≤ bigFuel sa := by
        have h1 : (spell sa c₁).length ≤ c₁.toNat :=
          spell_length_le hwfa (c₁.toNat + 1) c₁ hdca (by omega)
        have h2 : c₁ ≤ sa.next := dom_le_next hwfa hdca
        have h3 : 0 ≤ c₁ := dom_nonneg hdca
        rw [bigFuel]
        omega
      obtain ⟨ws, sb, heqw, hwfb, hws⟩ := getWords_total hwfa hdca (bigFuel sa) hfw
      have hseb : ShapeEq sa sb := (getWords_frame _ _ _ _ _ heqw).1
      have hdcb : Dom sb c₁ := (dom_congr hseb.2.2.1 c₁).mpr hdca
      have hscb : spell sb c₁ = spell s c₁ := by
        rw [spell_shapeEq hwfa hseb hdca, hsca]
      obtain ⟨out, s₁, heql, hwf1, hout⟩ := ih sb c₁
        (ws.foldl (fun r w => insert w r) res) (pre ++ [c]) hwfb hdcb
        (by rw [hscb]; exact hprec)
      refine ⟨out, s₁, ?_, hwf1, ?_⟩
      · rw [queryLoop]
        simp only [heqt]
        rw [if_pos hend]
        simp only [heqw]
        exact heql
      · intro w hw
        rcases hout w hw with hmem | ⟨hdict, hsub⟩
        · rw [mem_foldl_insert] at hmem
          rcases hmem with h | h
          · exact Or.inl h
          · obtain ⟨hd1, hd2⟩ := hws w h
            refine Or.inr ⟨by rw [← hsea.1]; exact hd1, ?_⟩
            rw [hsca] at hd2
            have : Substr w ((pre ++ [c]) ++ rest) := substr_of_suffix (hd2.trans hprec)
            simpa [List.append_assoc] using this
        · refine Or.inr ⟨?_, ?_⟩
          · rw [← hsea.1, ← hseb.1]; exact hdict
          · simpa [List.append_assoc] using hsub
    · obtain ⟨out, s₁, heql, hwf1, hout⟩ := ih sa c₁ res (pre ++ [c]) hwfa hdca
        (by rw [hsca]; exact hprec)
      refine ⟨out, s₁, ?_, hwf1, ?_⟩
      · rw [queryLoop]
        simp only [heqt]
        rw [if_neg hend]
        exact heql
      · intro w hw
        rcases hout w hw with hmem | ⟨hdict, hsub⟩
        · exact Or.inl hmem
        · refine Or.inr ⟨by rw [← hsea.1]; exact hdict, ?_⟩
          simpa [List.append_assoc] using hsub

/-- Totality and soundness of `query` on well-formed states: it always returns,
the state stays well-formed, and every reported word is an active dictionary
word occurring as a contiguous substring of the haystack. -/
lemma query_total {s : AhoCorasick} (hs : WF s) (hay : Str) :
    ∃ out s₁, query s hay = some (out, s₁) ∧ WF s₁ ∧
      ∀ w ∈ out, w ∈ s.dict ∧ Substr w hay := by
  obtain ⟨out, s₁, heq, hwf1, hout⟩ := queryLoop_total hay s ROOT ∅ [] hs (dom_root s)
    (by rw [spell_root])
  refine ⟨out, s₁, heq, hwf1, fun w hw => ?_⟩
  rcases hout w hw with h | ⟨h1, h2⟩
  · exact absurd h (Finset.not_mem_empty w)
  · exact ⟨h1, by simpa using h2⟩

end AhoCorasick

namespace AhoCorasick

lemma ac_ext {s t : AhoCorasick} (h1 : s.dict = t.dict) (h2 : s.ghosts = t.ghosts)
    (h3 : s.next = t.next) (h4 : s.nodes = t.nodes) : s = t := by
  cases s; cases t
  simp_all

lemma followPath_congr {s t : AhoCorasick}
    (h : ∀ u, (t.nodes u).children = (s.nodes u).children) :
    ∀ (w : Str) (u : Int), followPath t u w = followPath s u w := by
  intro w
  induction w with
  | nil => intro u; rfl
  | cons c rest ih =>
    intro u
    rw [followPath, followPath, h u]
    cases (s.nodes u).children [c] with
    | some child => exact ih child
    | none => rfl

lemma followPath_mono {s t : AhoCorasick}
    (h : ∀ u ch z, (s.nodes u).children ch = some z → (t.nodes u).children ch = some z) :
    ∀ (w : Str) (u v : Int), followPath s u w = some v → followPath t u w = some v := by
  intro w
  induction w with
  | nil => intro u v hf; rw [followPath] at hf ⊢; exact hf
  | cons c rest ih =>
    intro u v hf
    rw [followPath] at hf ⊢
    cases hc : (s.nodes u).children [c] with
    | none => rw [hc] at hf; cases hf
    | some child =>
      rw [hc] at hf
      rw [h u [c] child hc]
      exact ih child v hf

/-- The walking loop of `delete` on an existing path clears exactly the end
flag of the path's final node. -/
lemma deleteLoop_of_followPath :
    ∀ (w : Str) (s : AhoCorasick) (curr v : Int), followPath s curr w = some v →
    deleteLoop s curr w = Except.ok (update s v fun nd => { nd with end_ := false }) := by
  intro w
  induction w with
  | nil =>
    intro s curr v h
    rw [followPath] at h
    cases h
    rfl
  | cons c rest ih =>
    intro s curr v h
    rw [followPath] at h
    cases hc : (s.nodes curr).children [c] with
    | none => rw [hc] at h; cases h
    | some child =>
      rw [hc] at h
      rw [deleteLoop]
      simp only [hc]
      exact ih s child v h

/-- `delete` of an active word preserves well-formedness. -/
lemma wf_delete {s : AhoCorasick} (hs : WF s) {w : Str} {s₁ : AhoCorasick}
    (h : delete s w = Except.ok s₁) : WF s₁ := by
  rw [delete] at h
  by_cases hmem : w ∈ s.dict
  · rw [if_pos hmem] at h
    obtain ⟨v, hfp, hev⟩ := hs.hdictpath w hmem
    have hfp₀ : followPath { s with dict := s.dict.erase w, ghosts := insert w s.ghosts }
        ROOT w = some v :=
      (@followPath_congr s { s with dict := s.dict.erase w, ghosts := insert w s.ghosts }
        (fun _ => rfl) w ROOT).trans hfp
    rw [deleteLoop_of_followPath w _ ROOT v hfp₀] at h
    cases h
    obtain ⟨hdv, hsv⟩ := followPath_sound hs w ROOT v (dom_root s) hfp
    rw [spell_root, List.nil_append] at hsv
    have hwne : w ≠ [] := hs.hdictne w hmem
    have hvroot : v ≠ ROOT := by
      intro hr
      rw [hr, spell_root] at hsv
      exact hwne hsv.symm
    set t := update { s with dict := s.dict.erase w, ghosts := insert w s.ghosts } v
      (fun nd => { nd with end_ := false }) with ht
    have htd : t.dict = s.dict.erase w := rfl
    have htg : t.ghosts = insert w s.ghosts := rfl
    have htn : t.next = s.next := rfl
    have hnodes : ∀ u, u ≠ v → t.nodes u = s.nodes u := by
      intro u hu
      rw [ht, update_node_ne _ _ _ _ hu]
    have hnodev : t.nodes v = { s.nodes v with end_ := false } := by
      rw [ht, update_node_eq]
    have hagree : ∀ u, (t.nodes u).parent = (s.nodes u).parent ∧
        (t.nodes u).char = (s.nodes u).char := by
      intro u
      by_cases hu : u = v
      · subst hu; rw [hnodev]; exact ⟨rfl, rfl⟩
      · rw [hnodes u hu]; exact ⟨rfl, rfl⟩
    have hchildren : ∀ u, (t.nodes u).children = (s.nodes u).children := by
      intro u
      by_cases hu : u = v
      · subst hu; rw [hnodev]
      · rw [hnodes u hu]
    have hsuffix : ∀ u, (t.nodes u).suffix = (s.nodes u).suffix := by
      intro u
      by_cases hu : u = v
      · subst hu; rw [hnodev]
      · rw [hnodes u hu]
    have hword : ∀ u, (t.nodes u).word = (s.nodes u).word := by
      intro u
      by_cases hu : u = v
      · subst hu; rw [hnodev]
      · rw [hnodes u hu]
    have hsufOf : ∀ u, (t.nodes u).suffixOf = (s.nodes u).suffixOf := by
      intro u
      by_cases hu : u = v
      · subst hu; rw [hnodev]
      · rw [hnodes u hu]
    have hendeq : ∀ u, u ≠ v → (t.nodes u).end_ = (s.nodes u).end_ := by
      intro u hu
      rw [hnodes u hu]
    have hdom : ∀ u, Dom t u ↔ Dom s u := dom_congr htn
    have hspell : ∀ u, Dom s u → spell t u = spell s u := by
      intro u hu
      rw [spell, spell]
      exact spellF_agree hs (fun x _ => hagree x) _ u hu
    have hfpt : ∀ (x : Str) (u : Int), followPath t u x = followPath s u x :=
      followPath_congr hchildren
    refine ⟨?_, ?_, ?_, ?_, ?_, ?_, ?_, ?_, ?_, ?_, ?_, ?_, ?_, ?_, ?_⟩
    · rw [htn]; exact hs.hnext
    · rw [hnodes ROOT (fun hr => hvroot hr.symm)]; exact hs.root_char
    · rw [hnodes ROOT (fun hr => hvroot hr.symm)]; exact hs.root_parent
    · rw [hnodes ROOT (fun hr => hvroot hr.symm)]; exact hs.root_suffix
    · rw [hnodes ROOT (fun hr => hvroot hr.symm)]; exact hs.root_word
    · rw [hnodes ROOT (fun hr => hvroot hr.symm)]; exact hs.root_end
    · intro u hu ch z hcz
      rw [hchildren u] at hcz
      obtain ⟨h1, h2, h3, h4, h5⟩ := hs.hchild u ((hdom u).mp hu) ch z hcz
      exact ⟨(hdom z).mpr h1, h2, ((hagree z).1).trans h3, ((hagree z).2).trans h4, h5⟩
    · intro z hz hzroot
      obtain ⟨h1, h2, h3, h4⟩ := hs.hparent z ((hdom z).mp hz) hzroot
      rw [(hagree z).1]
      refine ⟨h1, h2, (hdom _).mpr h3, ?_⟩
      rw [hchildren, (hagree z).2]
      exact h4
    · intro z hz hzroot u hsu
      rw [hsuffix z] at hsu
      obtain ⟨h1, h2, h3⟩ := hs.hsuffix z ((hdom z).mp hz) hzroot u hsu
      rw [hspell z ((hdom z).mp hz), hspell u h1]
      exact ⟨(hdom u).mpr h1, h2, h3⟩
    · intro z hz x hx
      rw [hword z] at hx
      rw [hspell z ((hdom z).mp hz)]
      exact hs.hword z ((hdom z).mp hz) x hx
    · intro z hz he
      have hz' := (hdom z).mp hz
      by_cases hzv : z = v
      · subst hzv
        rw [hnodev] at he
        cases he
      · rw [hendeq z hzv] at he
        have hmem2 := hs.hend z hz' he
        rw [htd, hspell z hz', Finset.mem_erase]
        refine ⟨?_, hmem2⟩
        intro heq
        exact hzv (spell_inj hs hz' hdv (heq.trans hsv.symm))
    · intro x hx
      rw [htd, Finset.mem_erase] at hx
      obtain ⟨hxw, hxd⟩ := hx
      obtain ⟨z, hfz, hez⟩ := hs.hdictpath x hxd
      obtain ⟨hdz, hsz⟩ := followPath_sound hs x ROOT z (dom_root s) hfz
      rw [spell_root, List.nil_append] at hsz
      have hzv : z ≠ v := by
        intro heq
        rw [heq] at hsz
        exact hxw (hsz.symm.trans hsv)
      refine ⟨z, ?_, ?_⟩
      · rw [hfpt]; exact hfz
      · rw [hendeq z hzv]; exact hez
    · intro x hx
      rw [htd, Finset.mem_erase] at hx
      exact hs.hdictne x hx.2
    · intro x hx
      rw [htd, Finset.mem_erase] at hx
      rw [htg, Finset.mem_insert]
      rintro (h | h)
      · exact hx.1 h
      · exact hs.hdisj x hx.2 h
    · intro z hz
      rw [hsufOf z]
      exact hs.hsuffixOf z ((hdom z).mp hz)
  · rw [if_neg hmem] at h
    cases h
    exact hs

end AhoCorasick

namespace AhoCorasick

/-- `_clearSuffixes` is the identity whenever the node's `suffixOf` set is
empty — which the code never populates. -/
lemma clearSuffixesF_noop {s : AhoCorasick} {v : Int} (h : (s.nodes v).suffixOf = []) :
    ∀ f, clearSuffixesF f s v = s := by
  intro f
  cases f with
  | zero => rfl
  | succ f => rw [clearSuffixesF, h]; rfl

/-- Structural well-formedness clauses transfer along any state change that
keeps `next` and every node field except the end flag. -/
lemma wf_structural_congr {s t : AhoCorasick} (hs : WF s) (hn : t.next = s.next)
    (hagree : ∀ u, (t.nodes u).char = (s.nodes u).char ∧
      (t.nodes u).children = (s.nodes u).children ∧
      (t.nodes u).parent = (s.nodes u).parent ∧
      (t.nodes u).suffix = (s.nodes u).suffix ∧
      (t.nodes u).word = (s.nodes u).word ∧
      (t.nodes u).suffixOf = (s.nodes u).suffixOf) :
    (∀ u, Dom t u → ∀ ch v, (t.nodes u).children ch = some v →
      Dom t v ∧ u < v ∧ (t.nodes v).parent = u ∧ (t.nodes v).char = ch ∧ ch.length = 1) ∧
    (∀ v, Dom t v → v ≠ ROOT → 0 ≤ (t.nodes v).parent ∧ (t.nodes v).parent < v ∧
      Dom t ((t.nodes v).parent) ∧
      (t.nodes ((t.nodes v).parent)).children ((t.nodes v).char) = some v) ∧
    (∀ v, Dom t v → v ≠ ROOT → ∀ u, (t.nodes v).suffix = some u →
      Dom t u ∧ spell t u <:+ spell t v ∧ (spell t u).length < (spell t v).length) ∧
    (∀ v, Dom t v → ∀ w, (t.nodes v).word = some w → w = spell t v) ∧
    (∀ v, Dom t v → (t.nodes v).suffixOf = []) ∧
    (∀ u, Dom s u → spell t u = spell s u) ∧
    (t.nodes ROOT).char = [] ∧ (t.nodes ROOT).parent = EMPTY ∧
    (t.nodes ROOT).suffix = some ROOT ∧ (t.nodes ROOT).word = some [] := by
  have hdom : ∀ u, Dom t u ↔ Dom s u := dom_congr hn
  have hspell : ∀ u, Dom s u → spell t u = spell s u := by
    intro u hu
    rw [spell, spell]
    exact spellF_agree hs (fun x _ => ⟨(hagree x).2.2.1, (hagree x).1⟩) _ u hu
  refine ⟨?_, ?_, ?_, ?_, ?_, hspell, ?_, ?_, ?_, ?_⟩
  · intro u hu ch v hcv
    rw [(hagree u).2.1] at hcv
    obtain ⟨h1, h2, h3, h4, h5⟩ := hs.hchild u ((hdom u).mp hu) ch v hcv
    exact ⟨(hdom v).mpr h1, h2, ((hagree v).2.2.1).trans h3, ((hagree v).1).trans h4, h5⟩
  · intro v hv hvroot
    obtain ⟨h1, h2, h3, h4⟩ := hs.hparent v ((hdom v).mp hv) hvroot
    rw [(hagree v).2.2.1]
    refine ⟨h1, h2, (hdom _).mpr h3, ?_⟩
    rw [(hagree _).2.1, (hagree v).1]
    exact h4
  · intro v hv hvroot u hsu
    rw [(hagree v).2.2.2.1] at hsu
    obtain ⟨h1, h2, h3⟩ := hs.hsuffix v ((hdom v).mp hv) hvroot u hsu
    rw [hspell v ((hdom v).mp hv), hspell u h1]
    exact ⟨(hdom u).mpr h1, h2, h3⟩
  · intro v hv w hw
    rw [(hagree v).2.2.2.2.1] at hw
    rw [hspell v ((hdom v).mp hv)]
    exact hs.hword v ((hdom v).mp hv) w hw
  · intro v hv
    rw [(hagree v).2.2.2.2.2]
    exact hs.hsuffixOf v ((hdom v).mp hv)
  · rw [(hagree ROOT).1]; exact hs.root_char
  · rw [(hagree ROOT).2.2.1]; exact hs.root_parent
  · rw [(hagree ROOT).2.2.2.1]; exact hs.root_suffix
  · rw [(hagree ROOT).2.2.2.2.1]; exact hs.root_word

/-- Paths through allocated nodes survive any change that only adds edges. -/
lemma followPath_mono_dom {s t : AhoCorasick} (hs : WF s)
    (hmono : ∀ u ch z, Dom s u → (s.nodes u).children ch = some z →
      (t.nodes u).children ch = some z) :
    ∀ (w : Str) (u v : Int), Dom s u → followPath s u w = some v →
    followPath t u w = some v := by
  intro w
  induction w with
  | nil => intro u v _ hf; rw [followPath] at hf ⊢; exact hf
  | cons c rest ih =>
    intro u v hu hf
    rw [followPath] at hf ⊢
    cases hc : (s.nodes u).children [c] with
    | none => rw [hc] at hf; cases hf
    | some child =>
      rw [hc] at hf
      rw [hmono u [c] child hu hc]
      exact ih child v (hs.hchild u hu [c] child hc).1 hf

end AhoCorasick

namespace AhoCorasick

/-- The state produced by one node-allocating step of `add`'s loop (after the
no-op `_clearSuffixes` call): the fresh node `_next + 1` is installed, the edge
from the current node is added, and the counter is advanced. -/
def addNode (s : AhoCorasick) (curr : Int) (c : Char) (b : Bool) : AhoCorasick :=
  { update { s with nodes := fun u => if u = s.next + 1 then newNode c b curr else s.nodes u }
      curr (fun nd =>
        { nd with children := fun ch => if ch = [c] then some (s.next + 1) else nd.children ch })
    with next := s.next + 1 }

/-- The node-allocating branch of the loop of `add` is exactly an `addNode`
step followed by the recursive call, provided the `suffixOf` set of the
current node is empty (it always is). -/
lemma addLoop_none_eq {s : AhoCorasick} {curr : Int} {c : Char} {rest : Str}
    (h : (s.nodes curr).children [c] = none)
    (hso : (s.nodes curr).suffixOf = []) :
    addLoop s curr (c :: rest) =
      addLoop (addNode s curr c (decide (rest = []))) (s.next + 1) rest := by
  rw [addLoop]
  simp only [h]
  rw [clearSuffixesF_noop hso]
  rfl

/-- The edge-following branch of the loop of `add`. -/
lemma addLoop_child_eq {s : AhoCorasick} {curr : Int} {c : Char} {rest : Str} {child : Int}
    (h : (s.nodes curr).children [c] = some child) :
    addLoop s curr (c :: rest) =
      addLoop (if rest = [] then update s child (fun nd => { nd with end_ := true }) else s)
        child rest := by
  rw [addLoop]
  simp only [h]

lemma addNode_next (s : AhoCorasick) (curr : Int) (c : Char) (b : Bool) :
    (addNode s curr c b).next = s.next + 1 := rfl

lemma addNode_dict (s : AhoCorasick) (curr : Int) (c : Char) (b : Bool) :
    (addNode s curr c b).dict = s.dict := rfl

lemma addNode_ghosts (s : AhoCorasick) (curr : Int) (c : Char) (b : Bool) :
    (addNode s curr c b).ghosts = s.ghosts := rfl

lemma addNode_nodes_old (s : AhoCorasick) (curr : Int) (c : Char) (b : Bool) (u : Int)
    (hu1 : u ≠ curr) (hu2 : u ≠ s.next + 1) :
    (addNode s curr c b).nodes u = s.nodes u := by
  simp [addNode, update, hu1, hu2]

lemma addNode_nodes_new (s : AhoCorasick) (curr : Int) (c : Char) (b : Bool)
    (hcurr : curr ≠ s.next + 1) :
    (addNode s curr c b).nodes (s.next + 1) = newNode c b curr := by
  have h2 : s.next + 1 ≠ curr := fun h => hcurr h.symm
  simp [addNode, update, h2, hcurr]

lemma addNode_nodes_curr (s : AhoCorasick) (curr : Int) (c : Char) (b : Bool)
    (hcurr : curr ≠ s.next + 1) :
    (addNode s curr c b).nodes curr =
      { s.nodes curr with children :=
        fun ch => if ch = [c] then some (s.next + 1) else (s.nodes curr).children ch } := by
  simp [addNode, update, hcurr]

lemma addNode_dom {s : AhoCorasick} (hs : WF s) (curr : Int) (c : Char) (b : Bool) (u : Int) :
    Dom (addNode s curr c b) u ↔ Dom s u ∨ u = s.next + 1 := by
  have := hs.hnext
  simp only [Dom, ROOT, addNode_next]
  constructor
  · rintro (h | h) <;> omega
  · rintro ((h | h) | h) <;> omega

lemma addNode_spell_old {s : AhoCorasick} (hs : WF s) {curr : Int} (hd : Dom s curr)
    (c : Char) (b : Bool) : ∀ u, Dom s u → spell (addNode s curr c b) u = spell s u := by
  intro u hu
  rw [spell, spell]
  refine spellF_agree hs ?_ _ u hu
  intro x hx
  have hx1 : x ≠ s.next + 1 := by
    have := dom_le_next hs hx
    omega
  by_cases hx2 : x = curr
  · subst hx2
    rw [addNode_nodes_curr s x c b (by have := dom_le_next hs hd; omega)]
    exact ⟨rfl, rfl⟩
  · rw [addNode_nodes_old s curr c b x hx2 hx1]
    exact ⟨rfl, rfl⟩

lemma addNode_spell_new {s : AhoCorasick} (hs : WF s) {curr : Int} (hd : Dom s curr)
    (c : Char) (b : Bool) :
    spell (addNode s curr c b) (s.next + 1) = spell s curr ++ [c] := by
  have hcn : curr ≠ s.next + 1 := by have := dom_le_next hs hd; omega
  have hnn : (1:Int) ≤ s.next := hs.hnext
  have h1 : s.next + 1 ≠ ROOT := by simp only [ROOT]; omega
  rw [spell, spellF, if_neg h1, addNode_nodes_new s curr c b hcn]
  show spellF (s.next + 1).toNat (addNode s curr c b) curr ++ [c] = spell s curr ++ [c]
  congr 1
  rw [spellF_agree hs (fun x hx => by
      have hx1 : x ≠ s.next + 1 := by have := dom_le_next hs hx; omega
      by_cases hx2 : x = curr
      · subst hx2
        rw [addNode_nodes_curr s x c b (by have := dom_le_next hs hd; omega)]
        exact ⟨rfl, rfl⟩
      · rw [addNode_nodes_old s curr c b x hx2 hx1]
        exact ⟨rfl, rfl⟩) _ curr hd]
  rw [spell]
  have hcle : curr ≤ s.next := dom_le_next hs hd
  have hc0 : 0 ≤ curr := dom_nonneg hd
  exact spellF_stable hs (curr.toNat + 1) curr hd (by omega) _ _ (by omega) (by omega)

end AhoCorasick

namespace AhoCorasick

lemma addNode_end_old {s : AhoCorasick} {curr : Int} {c : Char} {b : Bool} (u : Int)
    (hcn : curr ≠ s.next + 1) (hu : u ≠ s.next + 1) :
    ((addNode s curr c b).nodes u).end_ = (s.nodes u).end_ := by
  by_cases hu1 : u = curr
  · subst hu1
    rw [addNode_nodes_curr s u c b hcn]
  · rw [addNode_nodes_old s curr c b u hu1 hu]

lemma addNode_end_new {s : AhoCorasick} {curr : Int} {c : Char} {b : Bool}
    (hcn : curr ≠ s.next + 1) :
    ((addNode s curr c b).nodes (s.next + 1)).end_ = b := by
  rw [addNode_nodes_new s curr c b hcn]
  rfl

lemma addNode_parent_pres {s : AhoCorasick} {curr : Int} {c : Char} {b : Bool} (u : Int)
    (hcn : curr ≠ s.next + 1) (hu : u ≠ s.next + 1) :
    ((addNode s curr c b).nodes u).parent = (s.nodes u).parent ∧
    ((addNode s curr c b).nodes u).char = (s.nodes u).char ∧
    ((addNode s curr c b).nodes u).suffix = (s.nodes u).suffix ∧
    ((addNode s curr c b).nodes u).word = (s.nodes u).word ∧
    ((addNode s curr c b).nodes u).suffixOf = (s.nodes u).suffixOf := by
  by_cases hu1 : u = curr
  · subst hu1
    rw [addNode_nodes_curr s u c b hcn]
    exact ⟨rfl, rfl, rfl, rfl, rfl⟩
  · rw [addNode_nodes_old s curr c b u hu1 hu]
    exact ⟨rfl, rfl, rfl, rfl, rfl⟩

lemma addNode_child_mono {s : AhoCorasick} (hs : WF s) {curr : Int} (hd : Dom s curr)
    {c : Char} (hc : (s.nodes curr).children [c] = none) (b : Bool) :
    ∀ u ch z, Dom s u → (s.nodes u).children ch = some z →
    ((addNode s curr c b).nodes u).children ch = some z := by
  intro u ch z hu hz
  have hcn : curr ≠ s.next + 1 := by have := dom_le_next hs hd; omega
  have hu2 : u ≠ s.next + 1 := by have := dom_le_next hs hu; omega
  by_cases hu1 : u = curr
  · subst hu1
    rw [addNode_nodes_curr s u c b hcn]
    show (if ch = [c] then some (s.next + 1) else (s.nodes u).children ch) = some z
    by_cases hch : ch = [c]
    · subst hch; rw [hc] at hz; cases hz
    · rw [if_neg hch]; exact hz
  · rw [addNode_nodes_old s curr c b u hu1 hu2]
    exact hz

lemma addNode_hchild {s : AhoCorasick} (hs : WF s) {curr : Int} (hd : Dom s curr)
    {c : Char} (hc : (s.nodes curr).children [c] = none) (b : Bool) :
    ∀ u, Dom (addNode s curr c b) u → ∀ ch v,
      ((addNode s curr c b).nodes u).children ch = some v →
    Dom (addNode s curr c b) v ∧ u < v ∧
      ((addNode s curr c b).nodes v).parent = u ∧
      ((addNode s curr c b).nodes v).char = ch ∧ ch.length = 1 := by
  intro u hu ch v hcv
  have hcn : curr ≠ s.next + 1 := by have := dom_le_next hs hd; omega
  rcases (addNode_dom hs curr c b u).mp hu with hus | hue
  · have hu2 : u ≠ s.next + 1 := by have := dom_le_next hs hus; omega
    by_cases hu1 : u = curr
    · subst hu1
      rw [addNode_nodes_curr s u c b hcn] at hcv
      replace hcv : (if ch = [c] then some (s.next + 1) else (s.nodes u).children ch) = some v :=
        hcv
      by_cases hch : ch = [c]
      · rw [if_pos hch] at hcv
        cases hcv
        subst hch
        refine ⟨(addNode_dom hs u c b _).mpr (Or.inr rfl), ?_, ?_, ?_, rfl⟩
        · have := dom_le_next hs hus
          omega
        · rw [addNode_nodes_new s u c b hcn]; rfl
        · rw [addNode_nodes_new s u c b hcn]; rfl
      · rw [if_neg hch] at hcv
        obtain ⟨h1, h2, h3, h4, h5⟩ := hs.hchild u hus ch v hcv
        have hv2 : v ≠ s.next + 1 := by have := dom_le_next hs h1; omega
        have hvu : v ≠ u := by omega
        rw [addNode_nodes_old s u c b v hvu hv2]
        exact ⟨(addNode_dom hs u c b v).mpr (Or.inl h1), h2, h3, h4, h5⟩
    · rw [addNode_nodes_old s curr c b u hu1 hu2] at hcv
      obtain ⟨h1, h2, h3, h4, h5⟩ := hs.hchild u hus ch v hcv
      have hv2 : v ≠ s.next + 1 := by have := dom_le_next hs h1; omega
      obtain ⟨hp, hch2, _, _, _⟩ := addNode_parent_pres v hcn hv2
      rw [hp, hch2]
      exact ⟨(addNode_dom hs curr c b v).mpr (Or.inl h1), h2, h3, h4, h5⟩
  · subst hue
    rw [addNode_nodes_new s curr c b hcn] at hcv
    replace hcv : (none : Option Int) = some v := hcv
    cases hcv

lemma addNode_hparent {s : AhoCorasick} (hs : WF s) {curr : Int} (hd : Dom s curr)
    {c : Char} (hc : (s.nodes curr).children [c] = none) (b : Bool) :
    ∀ v, Dom (addNode s curr c b) v → v ≠ ROOT →
    0 ≤ ((addNode s curr c b).nodes v).parent ∧
      ((addNode s curr c b).nodes v).parent < v ∧
      Dom (addNode s curr c b) ((addNode s curr c b).nodes v).parent ∧
      ((addNode s curr c b).nodes ((addNode s curr c b).nodes v).parent).children
        ((addNode s curr c b).nodes v).char = some v := by
  intro v hv hvroot
  have hcn : curr ≠ s.next + 1 := by have := dom_le_next hs hd; omega
  rcases (addNode_dom hs curr c b v).mp hv with hvs | hve
  · have hv2 : v ≠ s.next + 1 := by have := dom_le_next hs hvs; omega
    obtain ⟨h1, h2, h3, h4⟩ := hs.hparent v hvs hvroot
    obtain ⟨hp, hch2, _, _, _⟩ := addNode_parent_pres v hcn hv2
    rw [hp, hch2]
    refine ⟨h1, h2, (addNode_dom hs curr c b _).mpr (Or.inl h3), ?_⟩
    have hp2 : (s.nodes v).parent ≠ s.next + 1 := by
      have := dom_le_next hs h3
      omega
    by_cases hpc : (s.nodes v).parent = curr
    · rw [hpc, addNode_nodes_curr s curr c b hcn]
      show (if (s.nodes v).char = [c] then some (s.next + 1)
        else (s.nodes curr).children ((s.nodes v).char)) = some v
      have hne : (s.nodes v).char ≠ [c] := by
        intro heq
        rw [hpc, heq] at h4
        rw [hc] at h4
        cases h4
      rw [if_neg hne, ← hpc]
      exact h4
    · rw [addNode_nodes_old s curr c b _ hpc hp2]
      exact h4
  · subst hve
    rw [addNode_nodes_new s curr c b hcn]
    show 0 ≤ curr ∧ curr < s.next + 1 ∧ Dom (addNode s curr c b) curr ∧
      ((addNode s curr c b).nodes curr).children [c] = some (s.next + 1)
    refine ⟨dom_nonneg hd, by have := dom_le_next hs hd; omega,
      (addNode_dom hs curr c b curr).mpr (Or.inl hd), ?_⟩
    rw [addNode_nodes_curr s curr c b hcn]
    show (if ([c] : Str) = [c] then some (s.next + 1)
      else (s.nodes curr).children [c]) = some (s.next + 1)
    rw [if_pos rfl]

lemma addNode_hsuffix {s : AhoCorasick} (hs : WF s) {curr : Int} (hd : Dom s curr)
    {c : Char} (_hc : (s.nodes curr).children [c] = none) (b : Bool) :
    ∀ v, Dom (addNode s curr c b) v → v ≠ ROOT → ∀ u,
      ((addNode s curr c b).nodes v).suffix = some u →
    Dom (addNode s curr c b) u ∧
      spell (addNode s curr c b) u <:+ spell (addNode s curr c b) v ∧
      (spell (addNode s curr c b) u).length < (spell (addNode s curr c b) v).length := by
  intro v hv hvroot u hsu
  have hcn : curr ≠ s.next + 1 := by have := dom_le_next hs hd; omega
  rcases (addNode_dom hs curr c b v).mp hv with hvs | hve
  · have hv2 : v ≠ s.next + 1 := by have := dom_le_next hs hvs; omega
    rw [(addNode_parent_pres v hcn hv2).2.2.1] at hsu
    obtain ⟨h1, h2, h3⟩ := hs.hsuffix v hvs hvroot u hsu
    rw [addNode_spell_old hs hd c b v hvs, addNode_spell_old hs hd c b u h1]
    exact ⟨(addNode_dom hs curr c b u).mpr (Or.inl h1), h2, h3⟩
  · subst hve
    rw [addNode_nodes_new s curr c b hcn] at hsu
    replace hsu : (none : Option Int) = some u := hsu
    cases hsu

lemma addNode_hword {s : AhoCorasick} (hs : WF s) {curr : Int} (hd : Dom s curr)
    {c : Char} (_hc : (s.nodes curr).children [c] = none) (b : Bool) :
    ∀ v, Dom (addNode s curr c b) v → ∀ w,
      ((addNode s curr c b).nodes v).word = some w → w = spell (addNode s curr c b) v := by
  intro v hv w hw
  have hcn : curr ≠ s.next + 1 := by have := dom_le_next hs hd; omega
  rcases (addNode_dom hs curr c b v).mp hv with hvs | hve
  · have hv2 : v ≠ s.next + 1 := by have := dom_le_next hs hvs; omega
    rw [(addNode_parent_pres v hcn hv2).2.2.2.1] at hw
    rw [addNode_spell_old hs hd c b v hvs]
    exact hs.hword v hvs w hw
  · subst hve
    rw [addNode_nodes_new s curr c b hcn] at hw
    replace hw : (none : Option Str) = some w := hw
    cases hw

lemma addNode_hsuffixOf {s : AhoCorasick} (hs : WF s) {curr : Int} (hd : Dom s curr)
    {c : Char} (b : Bool) :
    ∀ v, Dom (addNode s curr c b) v → ((addNode s curr c b).nodes v).suffixOf = [] := by
  intro v hv
  have hcn : curr ≠ s.next + 1 := by have := dom_le_next hs hd; omega
  rcases (addNode_dom hs curr c b v).mp hv with hvs | hve
  · have hv2 : v ≠ s.next + 1 := by have := dom_le_next hs hvs; omega
    rw [(addNode_parent_pres v hcn hv2).2.2.2.2]
    exact hs.hsuffixOf v hvs
  · subst hve
    rw [addNode_nodes_new s curr c b hcn]
    rfl

lemma addNode_roots {s : AhoCorasick} (hs : WF s) {curr : Int} (hd : Dom s curr)
    {c : Char} (b : Bool) :
    ((addNode s curr c b).nodes ROOT).char = [] ∧
    ((addNode s curr c b).nodes ROOT).parent = EMPTY ∧
    ((addNode s curr c b).nodes ROOT).suffix = some ROOT ∧
    ((addNode s curr c b).nodes ROOT).word = some [] ∧
    ((addNode s curr c b).nodes ROOT).end_ = false := by
  have hcn : curr ≠ s.next + 1 := by have := dom_le_next hs hd; omega
  have hr2 : ROOT ≠ s.next + 1 := by
    have := hs.hnext
    simp only [ROOT]
    omega
  obtain ⟨h1, h2, h3, h4, h5⟩ := addNode_parent_pres ROOT hcn hr2
  rw [h1, h2, h3, h4, addNode_end_old ROOT hcn hr2]
  exact ⟨hs.root_char, hs.root_parent, hs.root_suffix, hs.root_word, hs.root_end⟩

/-- Allocating a non-terminal node under an existing node preserves full
well-formedness (the new node is not an end node, so no dictionary clause is
affected). -/
lemma addNode_wf_false {s : AhoCorasick} (hs : WF s) {curr : Int} (hd : Dom s curr)
    {c : Char} (hc : (s.nodes curr).children [c] = none) :
    WF (addNode s curr c false) := by
  have hcn : curr ≠ s.next + 1 := by have := dom_le_next hs hd; omega
  obtain ⟨hr1, hr2, hr3, hr4, hr5⟩ := addNode_roots hs hd (b := false) (c := c)
  refine ⟨?_, hr1, hr2, hr3, hr4, hr5, addNode_hchild hs hd hc false,
    addNode_hparent hs hd hc false, addNode_hsuffix hs hd hc false,
    addNode_hword hs hd hc false, ?_, ?_, ?_, ?_, addNode_hsuffixOf hs hd false⟩
  · rw [addNode_next]
    have := hs.hnext
    omega
  · intro u hu he
    rcases (addNode_dom hs curr c false u).mp hu with hus | hue
    · have hu2 : u ≠ s.next + 1 := by have := dom_le_next hs hus; omega
      rw [addNode_end_old u hcn hu2] at he
      rw [addNode_dict, addNode_spell_old hs hd c false u hus]
      exact hs.hend u hus he
    · subst hue
      rw [addNode_end_new hcn] at he
      cases he
  · intro x hx
    rw [addNode_dict] at hx
    obtain ⟨z, hfz, hez⟩ := hs.hdictpath x hx
    have hdz : Dom s z := (followPath_sound hs x ROOT z (dom_root s) hfz).1
    have hz2 : z ≠ s.next + 1 := by have := dom_le_next hs hdz; omega
    refine ⟨z, ?_, ?_⟩
    · exact followPath_mono_dom hs (addNode_child_mono hs hd hc false) x ROOT z (dom_root s) hfz
    · rw [addNode_end_old z hcn hz2]
      exact hez
  · intro x hx
    rw [addNode_dict] at hx
    exact hs.hdictne x hx
  · intro x hx
    rw [addNode_dict] at hx
    rw [addNode_ghosts]
    exact hs.hdisj x hx

end AhoCorasick

namespace AhoCorasick

lemma spellF_nodes_eq {s t : AhoCorasick} (h : t.nodes = s.nodes) :
    ∀ (f : Nat) (v : Int), spellF f t v = spellF f s v := by
  intro f
  induction f with
  | zero => intro v; rfl
  | succ f ih =>
    intro v
    rw [spellF, spellF, h]
    by_cases hv : v = ROOT
    · rw [if_pos hv, if_pos hv]
    · rw [if_neg hv, if_neg hv, ih]

lemma spell_nodes_eq {s t : AhoCorasick} (h : t.nodes = s.nodes) (v : Int) :
    spell t v = spell s v := by
  rw [spell, spell]
  exact spellF_nodes_eq h _ v

/-- Invariant carried through the walking loop of `add`, relating the loop's
input state `s` to its final state `t` when entered at `curr` with the
remaining characters `rest`: the structural well-formedness clauses hold of
`t`, the only new end flag belongs to the node spelling
`spell s curr ++ rest`, no edge or end flag of `s` is lost, words of existing
nodes are unchanged, and the remaining path now exists and ends in an end
node. -/
structure GrowOut (s t : AhoCorasick) (curr : Int) (rest : Str) : Prop where
  dict_eq : t.dict = s.dict
  ghosts_eq : t.ghosts = s.ghosts
  next_le : s.next ≤ t.next
  next_pos : 1 ≤ t.next
  root_char : (t.nodes ROOT).char = []
  root_parent : (t.nodes ROOT).parent = EMPTY
  root_suffix : (t.nodes ROOT).suffix = some ROOT
  root_word : (t.nodes ROOT).word = some []
  root_end : (t.nodes ROOT).end_ = false
  hchild : ∀ u, Dom t u → ∀ ch v, (t.nodes u).children ch = some v →
    Dom t v ∧ u < v ∧ (t.nodes v).parent = u ∧ (t.nodes v).char = ch ∧ ch.length = 1
  hparent : ∀ v, Dom t v → v ≠ ROOT → 0 ≤ (t.nodes v).parent ∧ (t.nodes v).parent < v ∧
    Dom t ((t.nodes v).parent) ∧
    (t.nodes ((t.nodes v).parent)).children ((t.nodes v).char) = some v
  hsuffix : ∀ v, Dom t v → v ≠ ROOT → ∀ u, (t.nodes v).suffix = some u →
    Dom t u ∧ spell t u <:+ spell t v ∧ (spell t u).length < (spell t v).length
  hword : ∀ v, Dom t v → ∀ w, (t.nodes v).word = some w → w = spell t v
  hsuffixOf : ∀ v, Dom t v → (t.nodes v).suffixOf = []
  hendchar : ∀ u, Dom t u → (t.nodes u).end_ = true →
    (Dom s u ∧ (s.nodes u).end_ = true) ∨ spell t u = spell s curr ++ rest
  child_mono : ∀ u ch z, Dom s u → (s.nodes u).children ch = some z →
    (t.nodes u).children ch = some z
  end_mono : ∀ u, Dom s u → (s.nodes u).end_ = true → (t.nodes u).end_ = true
  dom_mono : ∀ u, Dom s u → Dom t u
  spell_pres : ∀ u, Dom s u → spell t u = spell s u
  newpath : ∃ v, followPath t curr rest = some v ∧ (t.nodes v).end_ = true ∧ Dom t v

/-- The final loop step when the last character's edge already exists: only the
end flag of the existing child is set. -/
lemma growOut_endUpdate {s : AhoCorasick} (hs : WF s) {curr child : Int} {c : Char}
    (hd : Dom s curr) (hcc : (s.nodes curr).children [c] = some child) :
    GrowOut s (update s child fun nd => { nd with end_ := true }) curr [c] := by
  obtain ⟨hdch, hltch, _, _, _⟩ := hs.hchild curr hd [c] child hcc
  have hagree : ∀ u,
      ((update s child fun nd => { nd with end_ := true }).nodes u).char = (s.nodes u).char ∧
      ((update s child fun nd => { nd with end_ := true }).nodes u).children = (s.nodes u).children ∧
      ((update s child fun nd => { nd with end_ := true }).nodes u).parent = (s.nodes u).parent ∧
      ((update s child fun nd => { nd with end_ := true }).nodes u).suffix = (s.nodes u).suffix ∧
      ((update s child fun nd => { nd with end_ := true }).nodes u).word = (s.nodes u).word ∧
      ((update s child fun nd => { nd with end_ := true }).nodes u).suffixOf = (s.nodes u).suffixOf := by
    intro u
    by_cases hu : u = child
    · subst hu
      rw [update_node_eq]
      exact ⟨rfl, rfl, rfl, rfl, rfl, rfl⟩
    · rw [update_node_ne _ _ _ _ hu]
      exact ⟨rfl, rfl, rfl, rfl, rfl, rfl⟩
  obtain ⟨HC, HP, HS, HW, HSO, HSP, RC, RP, RS, RW⟩ :=
    @wf_structural_congr s (update s child fun nd => { nd with end_ := true }) hs rfl hagree
  have hchr : child ≠ ROOT := by
    have := dom_nonneg hd
    simp only [ROOT]
    omega
  refine ⟨rfl, rfl, le_refl _, hs.hnext, RC, RP, RS, RW, ?_, HC, HP, HS, HW, HSO,
    ?_, ?_, ?_, fun u hu => hu, HSP, ?_⟩
  · rw [update_node_ne _ _ _ _ (fun h => hchr h.symm)]
    exact hs.root_end
  · intro u hu he
    by_cases huc : u = child
    · right
      rw [huc, HSP child hdch]
      exact spell_child hs hd hcc
    · left
      rw [update_node_ne _ _ _ _ huc] at he
      exact ⟨hu, he⟩
  · intro u ch z _ hz
    rw [(hagree u).2.1]
    exact hz
  · intro u _ he
    by_cases huc : u = child
    · subst huc
      rw [update_node_eq]
    · rw [update_node_ne _ _ _ _ huc]
      exact he
  · refine ⟨child, ?_, ?_, hdch⟩
    · rw [followPath, (hagree curr).2.1, hcc]
      rfl
    · rw [update_node_eq]

/-- The final loop step when the last character's edge is missing: a fresh
terminal node is allocated. -/
lemma growOut_newNode_last {s : AhoCorasick} (hs : WF s) {curr : Int} {c : Char}
    (hd : Dom s curr) (hcc : (s.nodes curr).children [c] = none) :
    GrowOut s (addNode s curr c true) curr [c] := by
  have hcn : curr ≠ s.next + 1 := by have := dom_le_next hs hd; omega
  obtain ⟨hr1, hr2, hr3, hr4, hr5⟩ := addNode_roots hs hd (b := true) (c := c)
  refine ⟨addNode_dict s curr c true, addNode_ghosts s curr c true, ?_, ?_,
    hr1, hr2, hr3, hr4, hr5,
    addNode_hchild hs hd hcc true, addNode_hparent hs hd hcc true,
    addNode_hsuffix hs hd hcc true, addNode_hword hs hd hcc true,
    addNode_hsuffixOf hs hd true, ?_, addNode_child_mono hs hd hcc true, ?_, ?_,
    addNode_spell_old hs hd c true, ?_⟩
  · rw [addNode_next]; omega
  · rw [addNode_next]; have := hs.hnext; omega
  · intro u hu he
    rcases (addNode_dom hs curr c true u).mp hu with hus | hue
    · left
      have hu2 : u ≠ s.next + 1 := by have := dom_le_next hs hus; omega
      rw [addNode_end_old u hcn hu2] at he
      exact ⟨hus, he⟩
    · right
      subst hue
      rw [addNode_spell_new hs hd c true]
  · intro u hu he
    have hu2 : u ≠ s.next + 1 := by have := dom_le_next hs hu; omega
    rw [addNode_end_old u hcn hu2]
    exact he
  · intro u hu
    exact (addNode_dom hs curr c true u).mpr (Or.inl hu)
  · refine ⟨s.next + 1, ?_, addNode_end_new hcn, (addNode_dom hs curr c true _).mpr (Or.inr rfl)⟩
    rw [followPath, addNode_nodes_curr s curr c true hcn]
    show (match (if ([c] : Str) = [c] then some (s.next + 1)
      else (s.nodes curr).children [c]) with
      | some child => followPath (addNode s curr c true) child []
      | none => none) = some (s.next + 1)
    rw [if_pos rfl]
    rfl

end AhoCorasick

namespace AhoCorasick

/-- Composing the loop invariant across an existing-edge step. -/
lemma growOut_step_child {s t : AhoCorasick} (hs : WF s) {curr child : Int} {c : Char}
    {rest : Str} (hd : Dom s curr) (hcc : (s.nodes curr).children [c] = some child)
    (H : GrowOut s t child rest) : GrowOut s t curr (c :: rest) := by
  refine ⟨H.dict_eq, H.ghosts_eq, H.next_le, H.next_pos, H.root_char, H.root_parent,
    H.root_suffix, H.root_word, H.root_end, H.hchild, H.hparent, H.hsuffix, H.hword,
    H.hsuffixOf, ?_, H.child_mono, H.end_mono, H.dom_mono, H.spell_pres, ?_⟩
  · intro u hu he
    rcases H.hendchar u hu he with h | h
    · exact Or.inl h
    · right
      rw [h, spell_child hs hd hcc]
      simp
  · obtain ⟨v, h1, h2, h3⟩ := H.newpath
    refine ⟨v, ?_, h2, h3⟩
    rw [followPath, H.child_mono curr [c] child hd hcc]
    exact h1

/-- Composing the loop invariant across a node-allocating step. -/
lemma growOut_step_new {s t : AhoCorasick} (hs : WF s) {curr : Int} {c : Char} {rest : Str}
    (hd : Dom s curr) (hcc : (s.nodes curr).children [c] = none)
    (H : GrowOut (addNode s curr c false) t (s.next + 1) rest) :
    GrowOut s t curr (c :: rest) := by
  have hcn : curr ≠ s.next + 1 := by have := dom_le_next hs hd; omega
  have hd4 : ∀ u, Dom s u → Dom (addNode s curr c false) u :=
    fun u hu => (addNode_dom hs curr c false u).mpr (Or.inl hu)
  refine ⟨H.dict_eq.trans (addNode_dict ..), H.ghosts_eq.trans (addNode_ghosts ..),
    ?_, H.next_pos, H.root_char, H.root_parent, H.root_suffix, H.root_word, H.root_end,
    H.hchild, H.hparent, H.hsuffix, H.hword, H.hsuffixOf, ?_, ?_, ?_, ?_, ?_, ?_⟩
  · have h1 := H.next_le
    rw [addNode_next] at h1
    omega
  · intro u hu he
    rcases H.hendchar u hu he with ⟨h1, h2⟩ | h
    · rcases (addNode_dom hs curr c false u).mp h1 with hus | hue
      · left
        have hu2 : u ≠ s.next + 1 := by have := dom_le_next hs hus; omega
        rw [addNode_end_old u hcn hu2] at h2
        exact ⟨hus, h2⟩
      · exfalso
        rw [hue, addNode_end_new hcn] at h2
        cases h2
    · right
      rw [h, addNode_spell_new hs hd c false]
      simp
  · intro u ch z hu hz
    exact H.child_mono u ch z (hd4 u hu) (addNode_child_mono hs hd hcc false u ch z hu hz)
  · intro u hu he
    have hu2 : u ≠ s.next + 1 := by have := dom_le_next hs hu; omega
    refine H.end_mono u (hd4 u hu) ?_
    rw [addNode_end_old u hcn hu2]
    exact he
  · exact fun u hu => H.dom_mono u (hd4 u hu)
  · intro u hu
    rw [H.spell_pres u (hd4 u hu), addNode_spell_old hs hd c false u hu]
  · obtain ⟨v, h1, h2, h3⟩ := H.newpath
    refine ⟨v, ?_, h2, h3⟩
    rw [followPath]
    have hedge : ((addNode s curr c false).nodes curr).children [c] = some (s.next + 1) := by
      rw [addNode_nodes_curr s curr c false hcn]
      show (if ([c] : Str) = [c] then some (s.next + 1) else (s.nodes curr).children [c]) =
        some (s.next + 1)
      rw [if_pos rfl]
    rw [H.child_mono curr [c] (s.next + 1) (hd4 curr hd) hedge]
    exact h1

/-- The loop invariant holds of the whole walking loop of `add`. -/
lemma addLoop_grow : ∀ (rest : Str) (s : AhoCorasick) (curr : Int), WF s → Dom s curr →
    rest ≠ [] → GrowOut s (addLoop s curr rest) curr rest := by
  intro rest
  induction rest with
  | nil => intro s curr _ _ hne; exact absurd rfl hne
  | cons c rest' ih =>
    intro s curr hs hd _
    cases hcc : (s.nodes curr).children [c] with
    | some child =>
      rw [addLoop_child_eq hcc]
      have hdch := (hs.hchild curr hd [c] child hcc).1
      by_cases hr : rest' = []
      · subst hr
        rw [if_pos rfl]
        exact growOut_endUpdate hs hd hcc
      · rw [if_neg hr]
        exact growOut_step_child hs hd hcc (ih s child hs hdch hr)
    | none =>
      rw [addLoop_none_eq hcc (hs.hsuffixOf curr hd)]
      by_cases hr : rest' = []
      · subst hr
        have hdec : decide (([] : Str) = []) = true := rfl
        rw [hdec]
        exact growOut_newNode_last hs hd hcc
      · have hdec : decide (rest' = []) = false := by simp [hr]
        rw [hdec]
        have hwf4 := addNode_wf_false hs hd hcc
        have hd4 : Dom (addNode s curr c false) (s.next + 1) :=
          (addNode_dom hs curr c false _).mpr (Or.inr rfl)
        exact growOut_step_new hs hd hcc (ih (addNode s curr c false) (s.next + 1) hwf4 hd4 hr)

/-- The walking loop of `add` never reads the dictionary or ghost sets, so it
commutes with updating them. -/
lemma addLoop_dict_comm : ∀ (rest : Str) (s : AhoCorasick) (curr : Int) (d g : Finset Str),
    WF s → Dom s curr →
    addLoop { s with dict := d, ghosts := g } curr rest =
      { addLoop s curr rest with dict := d, ghosts := g } := by
  intro rest
  induction rest with
  | nil => intro s curr d g _ _; rfl
  | cons c rest' ih =>
    intro s curr d g hs hd
    cases hcc : (s.nodes curr).children [c] with
    | some child =>
      have hcc' : (({ s with dict := d, ghosts := g } : AhoCorasick).nodes curr).children [c] =
          some child := hcc
      rw [addLoop_child_eq hcc', addLoop_child_eq hcc]
      have hdch := (hs.hchild curr hd [c] child hcc).1
      by_cases hr : rest' = []
      · subst hr
        rw [if_pos rfl, if_pos rfl]
        rfl
      · rw [if_neg hr, if_neg hr]
        exact ih s child d g hs hdch
    | none =>
      have hso := hs.hsuffixOf curr hd
      have hcc' : (({ s with dict := d, ghosts := g } : AhoCorasick).nodes curr).children [c] =
          none := hcc
      have hso' : (({ s with dict := d, ghosts := g } : AhoCorasick).nodes curr).suffixOf = [] :=
        hso
      rw [addLoop_none_eq hcc' hso', addLoop_none_eq hcc hso]
      by_cases hr : rest' = []
      · subst hr
        rfl
      · have hb : decide (rest' = []) = false := by simp [hr]
        rw [hb]
        have hA : addNode { s with dict := d, ghosts := g } curr c false =
            { addNode s curr c false with dict := d, ghosts := g } := rfl
        rw [hA]
        have hwf4 := addNode_wf_false hs hd hcc
        have hd4 : Dom (addNode s curr c false) (s.next + 1) :=
          (addNode_dom hs curr c false _).mpr (Or.inr rfl)
        exact ih (addNode s curr c false) (s.next + 1) d g hwf4 hd4

/-- `add` preserves well-formedness. -/
lemma wf_add {s : AhoCorasick} (hs : WF s) {w : Str} {s₁ : AhoCorasick}
    (h : add s w = Except.ok s₁) : WF s₁ := by
  rw [add] at h
  by_cases hw : w = []
  · rw [if_pos hw] at h
    cases h
  · rw [if_neg hw] at h
    by_cases hmem : w ∈ s.dict
    · rw [if_pos hmem] at h
      cases h
      exact hs
    · rw [if_neg hmem] at h
      cases h
      rw [addLoop_dict_comm w s ROOT _ _ hs (dom_root s)]
      have hG := addLoop_grow w s ROOT hs (dom_root s) hw
      generalize hT : addLoop s ROOT w = T at hG ⊢
      have hnodes_eq :
          ({ T with dict := insert w s.dict, ghosts := s.ghosts.erase w } : AhoCorasick).nodes
            = T.nodes := rfl
      have hspell : ∀ v,
          spell { T with dict := insert w s.dict, ghosts := s.ghosts.erase w } v = spell T v :=
        spell_nodes_eq hnodes_eq
      have hfpeq : ∀ (x : Str) (u : Int),
          followPath { T with dict := insert w s.dict, ghosts := s.ghosts.erase w } u x =
            followPath T u x :=
        fun x u => @followPath_congr T
          { T with dict := insert w s.dict, ghosts := s.ghosts.erase w } (fun _ => rfl) x u
      refine ⟨hG.next_pos, hG.root_char, hG.root_parent, hG.root_suffix, hG.root_word,
        hG.root_end, hG.hchild, hG.hparent, ?_, ?_, ?_, ?_, ?_, ?_, hG.hsuffixOf⟩
      · intro v hv hvroot u hsu
        obtain ⟨h1, h2, h3⟩ := hG.hsuffix v hv hvroot u hsu
        rw [hspell v, hspell u]
        exact ⟨h1, h2, h3⟩
      · intro v hv x hx
        rw [hspell v]
        exact hG.hword v hv x hx
      · intro u hu he
        rw [hspell u]
        rcases hG.hendchar u hu he with ⟨h1, h2⟩ | h2
        · rw [hG.spell_pres u h1]
          exact Finset.mem_insert_of_mem (hs.hend u h1 h2)
        · rw [h2, spell_root, List.nil_append]
          exact Finset.mem_insert_self w _
      · intro x hx
        rcases Finset.mem_insert.mp hx with hx | hx
        · subst hx
          obtain ⟨v, h1, h2, h3⟩ := hG.newpath
          exact ⟨v, (hfpeq x ROOT).trans h1, h2⟩
        · obtain ⟨z, hfz, hez⟩ := hs.hdictpath x hx
          have hdz : Dom s z := (followPath_sound hs x ROOT z (dom_root s) hfz).1
          refine ⟨z, ?_, ?_⟩
          · exact (hfpeq x ROOT).trans
              (followPath_mono_dom hs hG.child_mono x ROOT z (dom_root s) hfz)
          · exact hG.end_mono z hdz hez
      · intro x hx
        rcases Finset.mem_insert.mp hx with hx | hx
        · subst hx; exact hw
        · exact hs.hdictne x hx
      · intro x hx
        show x ∉ s.ghosts.erase w
        rcases Finset.mem_insert.mp hx with hx | hx
        · subst hx; exact Finset.not_mem_erase x s.ghosts
        · intro hmem2
          exact hs.hdisj x hx (Finset.mem_of_mem_erase hmem2)

lemma dom_init {v : Int} (h : Dom init v) : v = ROOT := by
  rcases h with h | ⟨h1, h2⟩
  · exact h
  · have h2' : v ≤ 1 := h2
    simp only [ROOT]
    omega

lemma wf_init : WF init := by
  refine ⟨le_refl _, rfl, rfl, rfl, rfl, rfl, ?_, ?_, ?_, ?_, ?_, ?_, ?_, ?_, ?_⟩
  · intro u hu ch v hcv
    rw [dom_init hu] at hcv
    replace hcv : (none : Option Int) = some v := hcv
    cases hcv
  · intro v hv hroot
    exact absurd (dom_init hv) hroot
  · intro v hv hroot u hsu
    exact absurd (dom_init hv) hroot
  · intro v hv x hx
    rw [dom_init hv] at hx ⊢
    replace hx : some ([] : Str) = some x := hx
    cases hx
    exact (spell_root init).symm
  · intro v hv he
    rw [dom_init hv] at he
    replace he : false = true := he
    cases he
  · intro x hx
    exact absurd hx (Finset.not_mem_empty x)
  · intro x hx
    exact absurd hx (Finset.not_mem_empty x)
  · intro x hx
    exact absurd hx (Finset.not_mem_empty x)
  · intro v hv
    rw [dom_init hv]
    rfl

/-- `query` preserves well-formedness whenever it returns. -/
lemma wf_query {s : AhoCorasick} (hs : WF s) {hay : Str} {res : Finset Str}
    {s₁ : AhoCorasick} (h : query s hay = some (res, s₁)) : WF s₁ := by
  obtain ⟨out, t, heq, hwf, _⟩ := query_total hs hay
  rw [h] at heq
  cases heq
  exact hwf

/-- Every state reachable through the public interface is well-formed. -/
lemma reach_wf {s : AhoCorasick} (h : Reach s) : WF s := by
  induction h with
  | init => exact wf_init
  | add hr heq ih => exact wf_add ih heq
  | del hr heq ih => exact wf_delete ih heq
  | query hr heq ih => exact wf_query ih heq

end AhoCorasick

namespace AhoCorasick

/-- The walking loop of `add` along a fully existing path only sets the end
flag of the path's final node. -/
lemma addLoop_existing : ∀ (rest : Str) (s : AhoCorasick) (curr v : Int), rest ≠ [] →
    followPath s curr rest = some v →
    addLoop s curr rest = update s v fun nd => { nd with end_ := true } := by
  intro rest
  induction rest with
  | nil => intro s curr v hne _; exact absurd rfl hne
  | cons c rest' ih =>
    intro s curr v _ hfp
    rw [followPath] at hfp
    cases hc : (s.nodes curr).children [c] with
    | none => rw [hc] at hfp; cases hfp
    | some child =>
      rw [hc] at hfp
      rw [addLoop_child_eq hc]
      by_cases hr : rest' = []
      · subst hr
        replace hfp : some child = some v := hfp
        cases hfp
        rw [if_pos rfl]
        rfl
      · rw [if_neg hr]
        exact ih s child v hr hfp

lemma setEnd_self {nd : ACNode} {b : Bool} (h : nd.end_ = b) : ({ nd with end_ := b }) = nd := by
  cases nd
  cases h
  rfl

lemma update_update_end (s : AhoCorasick) (v : Int) :
    update (update s v fun nd => { nd with end_ := false }) v
        (fun nd => { nd with end_ := true }) =
      update s v (fun nd => { nd with end_ := true }) := by
  refine ac_ext rfl rfl rfl ?_
  funext u
  by_cases hu : u = v
  · subst hu
    simp [update]
  · simp [update, hu]

lemma update_end_self (s : AhoCorasick) (v : Int) (h : (s.nodes v).end_ = true) :
    update s v (fun nd => { nd with end_ := true }) = s := by
  refine ac_ext rfl rfl rfl ?_
  funext u
  by_cases hu : u = v
  · subst hu
    rw [update_node_eq, setEnd_self h]
  · rw [update_node_ne _ _ _ _ hu]

end AhoCorasick

/-- C8: on every reachable state, `query` never fails: it returns a result set
for every haystack; the empty haystack yields the empty set and an unchanged
state; and a haystack containing no active dictionary word as a contiguous
substring yields the empty set. -/
theorem C8_query_never_fails (s : AhoCorasick) (hs : Reach s) :
    (∀ h, ∃ res s₁, query s h = some (res, s₁)) ∧
    query s [] = some (∅, s) ∧
    (∀ h res s₁, query s h = some (res, s₁) → (∀ w ∈ s.dict, ¬ Substr w h) → res = ∅) := by
  have hwf := reach_wf hs
  refine ⟨?_, rfl, ?_⟩
  · intro h
    obtain ⟨out, s₁, heq, _, _⟩ := query_total hwf h
    exact ⟨out, s₁, heq⟩
  · intro h res s₁ heq hno
    obtain ⟨out, t, heq2, _, hsound⟩ := query_total hwf h
    rw [heq] at heq2
    cases heq2
    refine Finset.eq_empty_iff_forall_not_mem.mpr ?_
    intro w hw
    obtain ⟨h1, h2⟩ := hsound w hw
    exact hno w h1 h2

/-- Witness for C8 on the concrete dictionary `{"ab"}`: the query `"z"`
returns, and the empty query returns the empty set with the state intact. -/
theorem C8_witness :
    (∃ res s₁, query cs1 ['z'] = some (res, s₁)) ∧ query cs1 [] = some (∅, cs1) :=
  ⟨(C8_query_never_fails cs1 reach_cs1).1 ['z'], (C8_query_never_fails cs1 reach_cs1).2.1⟩

/-- C10: through the public interface, the internal-consistency assertion of
`delete` ("Unexpected missing child while deleting a node") never fires: in a
reachable state, every active word has a complete child-edge path, so deleting
it succeeds. -/
theorem C10_delete_assertion_unreachable (s : AhoCorasick) (hs : Reach s) (w : Str)
    (hw : w ∈ s.dict) : ∃ s₁, delete s w = Except.ok s₁ := by
  have hwf := reach_wf hs
  obtain ⟨v, hfp, _⟩ := hwf.hdictpath w hw
  rw [delete, if_pos hw]
  have hfp₀ : followPath { s with dict := s.dict.erase w, ghosts := insert w s.ghosts }
      ROOT w = some v :=
    (@followPath_congr s { s with dict := s.dict.erase w, ghosts := insert w s.ghosts }
      (fun _ => rfl) w ROOT).trans hfp
  rw [deleteLoop_of_followPath w _ ROOT v hfp₀]
  exact ⟨_, rfl⟩

/-- Witness for C10: deleting the active word "ab" succeeds concretely. -/
theorem C10_witness : ∃ s₁, delete cs1 abW = Except.ok s₁ :=
  C10_delete_assertion_unreachable cs1 reach_cs1 abW (by decide)

/-- C7: `delete` is a no-op on inactive words; on an active word it removes no
node and no edge and touches no memoized field: only the dictionary and ghost
sets change, and the single node at the end of the word's path has exactly its
end flag cleared. -/
theorem C7_delete_frame (s : AhoCorasick) (hs : Reach s) (w : Str) :
    (w ∉ s.dict → delete s w = Except.ok s) ∧
    (w ∈ s.dict → ∃ v s₁, followPath s ROOT w = some v ∧ delete s w = Except.ok s₁ ∧
      s₁.dict = s.dict.erase w ∧ s₁.ghosts = insert w s.ghosts ∧ s₁.next = s.next ∧
      (∀ u, u ≠ v → s₁.nodes u = s.nodes u) ∧
      s₁.nodes v = { s.nodes v with end_ := false }) := by
  have hwf := reach_wf hs
  constructor
  · intro hmem
    rw [delete, if_neg hmem]
  · intro hmem
    obtain ⟨v, hfp, _⟩ := hwf.hdictpath w hmem
    have hfp₀ : followPath { s with dict := s.dict.erase w, ghosts := insert w s.ghosts }
        ROOT w = some v :=
      (@followPath_congr s { s with dict := s.dict.erase w, ghosts := insert w s.ghosts }
        (fun _ => rfl) w ROOT).trans hfp
    refine ⟨v, update { s with dict := s.dict.erase w, ghosts := insert w s.ghosts } v
      (fun nd => { nd with end_ := false }), hfp, ?_, rfl, rfl, rfl, ?_, ?_⟩
    · rw [delete, if_pos hmem, deleteLoop_of_followPath w _ ROOT v hfp₀]
    · intro u hu
      exact update_node_ne _ _ _ _ hu
    · rw [update_node_eq]

/-- Witness for C7: deleting the absent word "b" is a no-op on the concrete
state holding only "ab", and deleting the active word "ab" changes exactly the
dictionary sets and one end flag. -/
theorem C7_witness :
    delete cs1 bW = Except.ok cs1 ∧
    ∃ v s₁, followPath cs1 ROOT abW = some v ∧ delete cs1 abW = Except.ok s₁ ∧
      s₁.dict = cs1.dict.erase abW ∧ s₁.ghosts = insert abW cs1.ghosts ∧
      s₁.next = cs1.next ∧ (∀ u, u ≠ v → s₁.nodes u = cs1.nodes u) ∧
      s₁.nodes v = { cs1.nodes v with end_ := false } :=
  ⟨(C7_delete_frame cs1 reach_cs1 bW).1 (by decide),
   (C7_delete_frame cs1 reach_cs1 abW).2 (by decide)⟩

/-- C5: deleting an active word and re-adding it restores the exact pre-delete
state, hence identical query behavior on every haystack. -/
theorem C5_delete_then_add_roundtrip (s : AhoCorasick) (hs : Reach s) (w : Str)
    (hw : w ∈ s.dict) :
    ∃ s₁, ((delete s w).bind fun t => add t w) = Except.ok s₁ ∧
      ∀ h, query s₁ h = query s h := by
  have hwf := reach_wf hs
  obtain ⟨v, hfp, hev⟩ := hwf.hdictpath w hw
  have hwne : w ≠ [] := hwf.hdictne w hw
  have hgw : w ∉ s.ghosts := hwf.hdisj w hw
  refine ⟨s, ?_, fun h => rfl⟩
  have hfp₀ : followPath { s with dict := s.dict.erase w, ghosts := insert w s.ghosts }
      ROOT w = some v :=
    (@followPath_congr s { s with dict := s.dict.erase w, ghosts := insert w s.ghosts }
      (fun _ => rfl) w ROOT).trans hfp
  rw [delete, if_pos hw, deleteLoop_of_followPath w _ ROOT v hfp₀]
  show add (update { s with dict := s.dict.erase w, ghosts := insert w s.ghosts } v
    (fun nd => { nd with end_ := false })) w = Except.ok s
  have hnm : w ∉ (update { s with dict := s.dict.erase w, ghosts := insert w s.ghosts } v
      (fun nd => { nd with end_ := false })).dict := Finset.not_mem_erase w s.dict
  rw [add, if_neg hwne, if_neg hnm]
  have hstate :
      ({ update { s with dict := s.dict.erase w, ghosts := insert w s.ghosts } v
          (fun nd => { nd with end_ := false }) with
        dict := insert w (update { s with dict := s.dict.erase w, ghosts := insert w s.ghosts } v
          (fun nd => { nd with end_ := false })).dict,
        ghosts := (update { s with dict := s.dict.erase w, ghosts := insert w s.ghosts } v
          (fun nd => { nd with end_ := false })).ghosts.erase w }
        : AhoCorasick) =
      update s v (fun nd => { nd with end_ := false }) := by
    refine ac_ext ?_ ?_ rfl rfl
    · exact Finset.insert_erase hw
    · exact Finset.erase_insert hgw
  rw [hstate]
  have hfp₁ : followPath (update s v (fun nd => { nd with end_ := false })) ROOT w = some v := by
    refine (followPath_congr ?_ w ROOT).trans hfp
    intro u
    by_cases hu : u = v
    · subst hu; rw [update_node_eq]
    · rw [update_node_ne _ _ _ _ hu]
  rw [addLoop_existing w _ ROOT v hwne hfp₁, update_update_end, update_end_self s v hev]

/-- Witness for C5: deleting and re-adding "ab" on the concrete state holding
only "ab" restores it exactly. -/
theorem C5_witness : ∃ s₁,
    ((delete cs1 abW).bind fun t => add t abW) = Except.ok s₁ ∧
    ∀ h, query s₁ h = query cs1 h :=
  C5_delete_then_add_roundtrip cs1 reach_cs1 abW (by decide)
